import Mathlib

/-!
Shallow embedding of the a5-rs discrete global grid system (DGGS) core,
together with proofs of the quantified invariants stated in its design
specification.

The embedding follows the Rust sources:
* `src/core/serialization.rs` — 64-bit cell codec (`get_resolution`,
  `serialize`, `deserialize`, `cell_to_children`, `cell_to_parent`).
* `src/core/origin.rs` — the fixed quintant/origin tables.
* `src/core/hilbert.rs` — the quaternary Hilbert curve on the triangular
  lattice.
* `src/core/compact.rs` — compact / uncompact set operations.
* `src/geometry/pentagon.rs` — planar pentagon shapes with winding control.
* `src/core/hex.rs` — hex string conversion.

Machine integers (`u64`, `usize`, `i32`) are embedded as `Nat`/`Int`;
the Rust code under scrutiny never wraps on its non-panicking paths, and
panicking paths (arithmetic overflow, out-of-range indexing, `expect`)
are represented explicitly by the `panic` constructor of `RResult` /
`Option.none`.  Floating point vectors in the Hilbert curve and pentagon
geometry hold integer or small-denominator rational values throughout;
they are embedded as exact rationals.
-/

namespace A5

/-- Outcome of a Rust function returning `Result<α, String>`: either a
value, an error message, or a panic (arithmetic overflow / failed index). -/
inductive RResult (α : Type) where
  | ok : α → RResult α
  | err : String → RResult α
  | panic : RResult α
deriving Repr, DecidableEq

/-- `serialization.rs`: `FIRST_HILBERT_RESOLUTION = 2`. -/
def FIRST_HILBERT_RESOLUTION : Int := 2

/-- `serialization.rs`: `MAX_RESOLUTION = 30`. -/
def MAX_RESOLUTION : Int := 30

/-- `serialization.rs`: `HILBERT_START_BIT = 58`. -/
def HILBERT_START_BIT : Nat := 58

/-- `serialization.rs`: `REMOVAL_MASK = 0x03ffffffffffffff`. -/
def REMOVAL_MASK : Nat := 0x03ffffffffffffff

/-- `serialization.rs`: `WORLD_CELL = 0`. -/
def WORLD_CELL : Nat := 0

/-- Decoded form of a cell (`A5Cell` as used by `serialization.rs`):
origin id, segment, Hilbert index `s`, resolution. -/
structure A5Cell where
  origin_id : Nat
  segment : Nat
  s : Nat
  resolution : Int
deriving Repr, DecidableEq

/-- `origin.rs`: `QUINTANT_FIRST`, the first quintant of each face in the
original (pre-reorder) origin numbering. -/
def QUINTANT_FIRST : List Nat := [4, 2, 3, 2, 0, 4, 3, 2, 2, 0, 3, 0]

/-- `origin.rs`: `ORIGIN_ORDER`, the permutation placing faces along the
macro Hilbert curve. -/
def ORIGIN_ORDER : List Nat := [0, 1, 2, 4, 3, 5, 7, 8, 6, 11, 10, 9]

/-- `first_quintant` of the reordered origin with id `id`
(`generate_origins` clones `origins[ORIGIN_ORDER[id]]`). -/
def firstQuintant (id : Nat) : Nat :=
  QUINTANT_FIRST.getD (ORIGIN_ORDER.getD id 0) 0

/-- Number of origins: `get_origins().len() = 12`. -/
def NUM_ORIGINS : Nat := 12

/-- The loop of `get_resolution`, with the running resolution `r`
represented as the natural number `r + 1` (the loop keeps `-1 ≤ r ≤ 29`).
Each iteration of the Rust loop decrements `resolution` and shifts by
1 bit below `FIRST_HILBERT_RESOLUTION` and by 2 bits from there up. -/
def getResolutionAux (shifted : Nat) : Nat → Nat
  | 0 => 0
  | n + 1 =>
    if shifted % 2 = 1 then n + 1
    else getResolutionAux (shifted / (if n < 3 then 2 else 4)) n

/-- `serialization.rs`: `get_resolution`.  Scans for the resolution marker
bit starting from `MAX_RESOLUTION - 1 = 29`; the result is returned as an
`Int` in `[-1, 29]`. -/
def get_resolution (index : Nat) : Int :=
  (getResolutionAux (index >>> 1) 30 : Int) - 1

/-- Hilbert index extraction of `deserialize` (resolution ≥ 2):
mask away origin and segment, shift away marker and trailing zeros. -/
def extractS (index : Nat) (resolution : Int) : Nat :=
  let hilbert_levels := resolution - FIRST_HILBERT_RESOLUTION + 1
  let hilbert_bits := 2 * hilbert_levels.toNat
  (index &&& REMOVAL_MASK) >>> (HILBERT_START_BIT - hilbert_bits)

/-- `serialization.rs`: `deserialize`.  The origin/segment extraction from
the top 6 bits is inlined as in the source; `NUM_ORIGINS` is
`get_origins().len()`. -/
def deserialize (index : Nat) : RResult A5Cell :=
  let resolution := get_resolution index
  if resolution = -1 then
    .ok ⟨0, 0, 0, resolution⟩
  else
    let top6 := index >>> 58
    match (if resolution = 0 then
            if NUM_ORIGINS ≤ top6 then none
            else some (top6, 0)
          else
            let origin_id := top6 / 5
            if NUM_ORIGINS ≤ origin_id then none
            else some (origin_id, (top6 + firstQuintant origin_id) % 5)) with
    | none => .err ("Could not parse origin: " ++ toString top6)
    | some (origin_id, segment) =>
      if resolution < FIRST_HILBERT_RESOLUTION then
        .ok ⟨origin_id, segment, 0, resolution⟩
      else
        .ok ⟨origin_id, segment, extractS index resolution, resolution⟩

/-- `serialization.rs`: `serialize`.  Panics (in the Rust sense) when the
origin table index is out of range or when the marker-bit shift
`HILBERT_START_BIT - r` underflows (which happens at resolution 30). -/
def serialize (cell : A5Cell) : RResult Nat :=
  if MAX_RESOLUTION < cell.resolution then
    .err ("Resolution (" ++ toString cell.resolution ++ ") is too large")
  else if cell.resolution = -1 then
    .ok WORLD_CELL
  else
    let r : Nat :=
      if cell.resolution < FIRST_HILBERT_RESOLUTION then
        cell.resolution.toNat + 1
      else
        2 * (1 + cell.resolution - FIRST_HILBERT_RESOLUTION).toNat + 1
    if NUM_ORIGINS ≤ cell.origin_id then
      .panic
    else
      let segment_n := (cell.segment + 5 - firstQuintant cell.origin_id) % 5
      let index0 : Nat :=
        if cell.resolution = 0 then cell.origin_id <<< 58
        else (5 * cell.origin_id + segment_n) <<< 58
      if FIRST_HILBERT_RESOLUTION ≤ cell.resolution then
        let hilbert_bits := 2 * (cell.resolution - FIRST_HILBERT_RESOLUTION + 1).toNat
        let max_s := 1 <<< hilbert_bits
        if max_s ≤ cell.s then
          .err ("S (" ++ toString cell.s ++ ") is too large for resolution level "
            ++ toString cell.resolution)
        else
          if HILBERT_START_BIT < r then .panic
          else .ok ((index0 + (cell.s <<< (HILBERT_START_BIT - hilbert_bits)))
            ||| (1 <<< (HILBERT_START_BIT - r)))
      else
        if HILBERT_START_BIT < r then .panic
        else .ok (index0 ||| (1 <<< (HILBERT_START_BIT - r)))

/-- Serializes a list of cells, propagating the first failure, as the
`children.push(serialize(&new_cell)?)` loop of `cell_to_children` does. -/
def serializeList : List A5Cell → RResult (List Nat)
  | [] => .ok []
  | c :: rest =>
    match serialize c with
    | .ok v =>
      match serializeList rest with
      | .ok l => .ok (v :: l)
      | .err e => .err e
      | .panic => .panic
    | .err e => .err e
    | .panic => .panic

/-- The list of child cells enumerated by the triple loop of
`cell_to_children` (origins outermost, then segments, then Hilbert index). -/
def childCells (origin_ids segments : List Nat) (shifted_s : Nat)
    (children_count : Nat) (new_resolution : Int) : List A5Cell :=
  origin_ids.flatMap fun o =>
    segments.flatMap fun seg =>
      (List.range children_count).map fun i =>
        ⟨o, seg, shifted_s + i, new_resolution⟩

/-- `serialization.rs`: `cell_to_children`. -/
def cell_to_children (index : Nat) (child_resolution : Option Int) :
    RResult (List Nat) :=
  match deserialize index with
  | .err e => .err e
  | .panic => .panic
  | .ok cell =>
    let current_resolution := cell.resolution
    let new_resolution := child_resolution.getD (current_resolution + 1)
    if new_resolution < current_resolution then
      .err ("Target resolution (" ++ toString new_resolution
        ++ ") must be equal to or greater than current resolution ("
        ++ toString current_resolution ++ ")")
    else if MAX_RESOLUTION < new_resolution then
      .err ("Target resolution (" ++ toString new_resolution
        ++ ") exceeds maximum resolution (" ++ toString MAX_RESOLUTION ++ ")")
    else if new_resolution = current_resolution then
      .ok [index]
    else
      let new_origin_ids :=
        if current_resolution = -1 then List.range 12 else [cell.origin_id]
      let new_segments :=
        if (current_resolution = -1 ∧ 0 < new_resolution) ∨ current_resolution = 0
        then [0, 1, 2, 3, 4] else [cell.segment]
      let resolution_diff :=
        new_resolution - max current_resolution (FIRST_HILBERT_RESOLUTION - 1)
      if resolution_diff ≤ 0 then
        serializeList
          (childCells new_origin_ids new_segments cell.s 1 new_resolution)
      else if 20 < resolution_diff then
        .err "Resolution difference too large"
      else
        serializeList
          (childCells new_origin_ids new_segments
            (cell.s <<< (2 * resolution_diff.toNat))
            (4 ^ resolution_diff.toNat) new_resolution)

/-- `serialization.rs`: `cell_to_parent`. -/
def cell_to_parent (index : Nat) (parent_resolution : Option Int) :
    RResult Nat :=
  match deserialize index with
  | .err e => .err e
  | .panic => .panic
  | .ok cell =>
    let current_resolution := cell.resolution
    let new_resolution := parent_resolution.getD (current_resolution - 1)
    if new_resolution < 0 then
      .err ("Target resolution (" ++ toString new_resolution
        ++ ") cannot be negative")
    else if current_resolution < new_resolution then
      .err ("Target resolution (" ++ toString new_resolution
        ++ ") must be equal to or less than current resolution ("
        ++ toString current_resolution ++ ")")
    else if new_resolution = current_resolution then
      .ok index
    else
      let resolution_diff := current_resolution - new_resolution
      serialize ⟨cell.origin_id, cell.segment,
        cell.s >>> (2 * resolution_diff.toNat), new_resolution⟩

/-- `serialization.rs`: `get_res0_cells`. -/
def get_res0_cells : RResult (List Nat) :=
  cell_to_children WORLD_CELL (some 0)

/-! ### Lemmas about the resolution scan -/

theorem getResolutionAux_le (n : Nat) :
    ∀ shifted, getResolutionAux shifted n ≤ n := by
  induction n with
  | zero => intro shifted; simp [getResolutionAux]
  | succ n ih =>
    intro shifted
    unfold getResolutionAux
    split
    · exact le_refl _
    · exact le_trans (ih _) (Nat.le_succ n)

theorem getResolutionAux_zero (n : Nat) : getResolutionAux 0 n = 0 := by
  induction n with
  | zero => simp [getResolutionAux]
  | succ n ih => simpa [getResolutionAux] using ih

theorem getResolutionAux_odd (B n : Nat) (h : 1 ≤ n) :
    getResolutionAux (2 * B + 1) n = n := by
  obtain ⟨m, rfl⟩ := Nat.exists_eq_add_of_le h
  unfold getResolutionAux
  simp [Nat.add_mul_mod_self_left, Nat.add_comm]

theorem getResolutionAux_succ (shifted n : Nat) :
    getResolutionAux shifted (n + 1) =
      if shifted % 2 = 1 then n + 1
      else getResolutionAux (shifted / (if n < 3 then 2 else 4)) n := rfl

theorem getResolutionAux_mul_four_pow (j : Nat) :
    ∀ x n, j + 3 ≤ n →
      getResolutionAux (x * 4 ^ j) n = getResolutionAux x (n - j) := by
  induction j with
  | zero => intro x n _; simp
  | succ j ih =>
    intro x n hn
    obtain ⟨m, rfl⟩ : ∃ m, n = m + 1 := ⟨n - 1, by omega⟩
    have hxx : x * 4 ^ (j + 1) = (x * 4 ^ j) * 4 := by ring
    have hdiv : x * 4 ^ (j + 1) / 4 = x * 4 ^ j := by
      rw [hxx]
      exact Nat.mul_div_cancel _ (by norm_num)
    have hn2 : m + 1 - (j + 1) = m - j := by omega
    rw [hn2, getResolutionAux_succ, if_neg (by omega), if_neg (by omega : ¬ m < 3),
      hdiv, ih x m (by omega)]

/-- Resolution of an index whose resolution marker sits at a Hilbert
position: `h` Hilbert levels give resolution `h + 1`. -/
theorem get_resolution_hilbert (T s h : Nat) (h1 : 1 ≤ h) (h28 : h ≤ 28) :
    get_resolution (T * 2 ^ 58 + s * 2 ^ (58 - 2 * h) + 2 ^ (57 - 2 * h)) =
      (h : Int) + 1 := by
  obtain ⟨k, hk⟩ : ∃ k, 56 - 2 * h = k := ⟨56 - 2 * h, rfl⟩
  have h58 : 58 - 2 * h = k + 2 := by omega
  have h57 : 57 - 2 * h = k + 1 := by omega
  have hidx : T * 2 ^ 58 + s * 2 ^ (58 - 2 * h) + 2 ^ (57 - 2 * h) =
      ((2 * (T * 4 ^ h + s) + 1) * 4 ^ (28 - h)) * 2 := by
    have h4 : (4 : Nat) ^ (28 - h) = 2 ^ k := by
      rw [show (4 : Nat) = 2 ^ 2 by norm_num, ← pow_mul]
      congr 1
      omega
    have hT : (2 : Nat) ^ 58 = 2 ^ (2 * h + 1) * (2 ^ k * 2) := by
      rw [← pow_succ, ← pow_add]
      congr 1
      omega
    rw [h58, h57, h4, hT, pow_succ, pow_add,
      show (4 : Nat) ^ h = 2 ^ (2 * h) by
        rw [show (4 : Nat) = 2 ^ 2 by norm_num, ← pow_mul]]
    ring
  rw [get_resolution, Nat.shiftRight_eq_div_pow, pow_one, hidx,
    Nat.mul_div_cancel _ (by norm_num),
    getResolutionAux_mul_four_pow (28 - h) _ 30 (by omega),
    getResolutionAux_odd _ _ (by omega)]
  omega

/-- Resolution of an index with the quintant (resolution 1) marker. -/
theorem get_resolution_res1 (T : Nat) :
    get_resolution (T * 2 ^ 58 + 2 ^ 56) = 1 := by
  have hidx : T * 2 ^ 58 + 2 ^ 56 = (((4 * T + 1) * 2) * 4 ^ 27) * 2 := by
    have h4 : (4 : Nat) ^ 27 = 2 ^ 54 := by
      rw [show (4 : Nat) = 2 ^ 2 by norm_num, ← pow_mul]
    rw [h4]
    ring
  rw [get_resolution, Nat.shiftRight_eq_div_pow, pow_one, hidx,
    Nat.mul_div_cancel _ (by norm_num),
    getResolutionAux_mul_four_pow 27 _ 30 (by omega),
    show 30 - 27 = 2 + 1 from rfl, getResolutionAux_succ,
    if_neg (by omega), if_pos (by omega),
    Nat.mul_div_cancel _ (by norm_num),
    show 4 * T + 1 = 2 * (2 * T) + 1 by ring,
    getResolutionAux_odd _ _ (by omega)]
  norm_num

/-- Resolution of an index with the face (resolution 0) marker. -/
theorem get_resolution_res0 (T : Nat) :
    get_resolution (T * 2 ^ 58 + 2 ^ 57) = 0 := by
  have hidx : T * 2 ^ 58 + 2 ^ 57 = (((2 * T + 1) * 4) * 4 ^ 27) * 2 := by
    have h4 : (4 : Nat) ^ 27 = 2 ^ 54 := by
      rw [show (4 : Nat) = 2 ^ 2 by norm_num, ← pow_mul]
    rw [h4]
    ring
  rw [get_resolution, Nat.shiftRight_eq_div_pow, pow_one, hidx,
    Nat.mul_div_cancel _ (by norm_num),
    getResolutionAux_mul_four_pow 27 _ 30 (by omega),
    show 30 - 27 = 2 + 1 from rfl, getResolutionAux_succ,
    if_neg (by omega), if_pos (by omega),
    show (2 * T + 1) * 4 / 2 = (2 * T + 1) * 2 by omega,
    show (2 : Nat) = 1 + 1 from rfl, getResolutionAux_succ,
    if_neg (by omega), if_pos (by omega),
    Nat.mul_div_cancel _ (by norm_num),
    getResolutionAux_odd _ _ (by omega)]
  norm_num

/-! ### Closed forms of `serialize` on well-formed cells -/

theorem serialize_res_neg1 (o seg s : Nat) :
    serialize ⟨o, seg, s, -1⟩ = .ok 0 := by
  simp [serialize, MAX_RESOLUTION, WORLD_CELL]

/-- `a * 2^k ||| y = a * 2^k + y` when `y < 2^k` (the packed fields of a
cell index do not overlap). -/
theorem lor_two_pow (a k y : Nat) (hy : y < 2 ^ k) :
    (a * 2 ^ k) ||| y = a * 2 ^ k + y := by
  rw [show a * 2 ^ k = 2 ^ k * a by ring, ← Nat.mul_add_lt_is_or hy a]

theorem serialize_res0 (o seg s : Nat) (ho : o < 12) :
    serialize ⟨o, seg, s, 0⟩ = .ok (o * 2 ^ 58 + 2 ^ 57) := by
  have h12 : ¬ NUM_ORIGINS ≤ o := by simp [NUM_ORIGINS]; omega
  simp only [serialize, MAX_RESOLUTION, FIRST_HILBERT_RESOLUTION,
    HILBERT_START_BIT, h12]
  norm_num [Nat.shiftLeft_eq]
  rw [show (288230376151711744 : Nat) = 2 ^ 58 by norm_num,
    show (144115188075855872 : Nat) = 2 ^ 57 by norm_num]
  exact lor_two_pow o 58 _ (by norm_num)

theorem serialize_res1 (o seg s : Nat) (ho : o < 12) :
    serialize ⟨o, seg, s, 1⟩ =
      .ok ((5 * o + (seg + 5 - firstQuintant o) % 5) * 2 ^ 58 + 2 ^ 56) := by
  have h12 : ¬ NUM_ORIGINS ≤ o := by simp [NUM_ORIGINS]; omega
  simp only [serialize, MAX_RESOLUTION, FIRST_HILBERT_RESOLUTION,
    HILBERT_START_BIT, h12]
  norm_num [Nat.shiftLeft_eq]
  rw [show (288230376151711744 : Nat) = 2 ^ 58 by norm_num,
    show (72057594037927936 : Nat) = 2 ^ 56 by norm_num]
  exact lor_two_pow _ 58 _ (by norm_num)

theorem serialize_hilbert (o seg s : Nat) (res : Int) (ho : o < 12)
    (h2 : 2 ≤ res) (h29 : res ≤ 29) (hs : s < 4 ^ (res - 1).toNat) :
    serialize ⟨o, seg, s, res⟩ =
      .ok ((5 * o + (seg + 5 - firstQuintant o) % 5) * 2 ^ 58 +
        s * 2 ^ (58 - 2 * (res - 1).toNat) + 2 ^ (57 - 2 * (res - 1).toNat)) := by
  have h12 : ¬ NUM_ORIGINS ≤ o := by simp [NUM_ORIGINS]; omega
  obtain ⟨m, hm⟩ : ∃ m : Nat, (res - 1).toNat = m := ⟨_, rfl⟩
  have hm1 : 1 ≤ m := by omega
  have hm28 : m ≤ 28 := by omega
  have e1 : res - FIRST_HILBERT_RESOLUTION + 1 = res - 1 := by
    simp only [FIRST_HILBERT_RESOLUTION]; ring
  have e2 : 1 + res - FIRST_HILBERT_RESOLUTION = res - 1 := by
    simp only [FIRST_HILBERT_RESOLUTION]; ring
  have hcond1 : ¬ MAX_RESOLUTION < res := by
    simp only [MAX_RESOLUTION]; omega
  have hcond2 : ¬ res = -1 := by omega
  have hcond3 : ¬ res < FIRST_HILBERT_RESOLUTION := by
    simp only [FIRST_HILBERT_RESOLUTION]; omega
  have hcond4 : ¬ res = 0 := by omega
  have h4m : (4 : Nat) ^ m = 2 ^ (2 * m) := by
    rw [show (4 : Nat) = 2 ^ 2 by norm_num, ← pow_mul]
  have hsml : ¬ (1 : Nat) <<< (2 * m) ≤ s := by
    rw [Nat.shiftLeft_eq, one_mul]
    rw [hm, h4m] at hs
    omega
  simp only [serialize, if_neg hcond1, if_neg hcond2, if_neg hcond3,
    if_neg hcond4, if_neg h12, if_pos (not_lt.mp hcond3), e1, e2, hm]
  simp only [HILBERT_START_BIT, if_neg hsml]
  rw [if_neg (by omega : ¬ (58 : Nat) < 2 * m + 1)]
  congr 1
  rw [Nat.shiftLeft_eq, Nat.shiftLeft_eq, Nat.shiftLeft_eq, one_mul]
  have hmarker : 58 - (2 * m + 1) = 57 - 2 * m := by omega
  rw [hmarker]
  have hdvd : (2:Nat) ^ (57 - 2 * m) < 2 ^ (58 - 2 * m) := by
    have h5857 : 58 - 2 * m = (57 - 2 * m) + 1 := by omega
    rw [h5857, pow_succ]
    have := Nat.pos_pow_of_pos (57 - 2 * m) (show 0 < 2 by norm_num)
    omega
  have hfac : (5 * o + (seg + 5 - firstQuintant o) % 5) * 2 ^ 58 +
      s * 2 ^ (58 - 2 * m) =
      ((5 * o + (seg + 5 - firstQuintant o) % 5) * 2 ^ (2 * m) + s) *
        2 ^ (58 - 2 * m) := by
    have h58 : (2:Nat) ^ 58 = 2 ^ (58 - 2 * m) * 2 ^ (2 * m) := by
      rw [← pow_add]
      congr 1
      omega
    rw [h58]
    ring
  rw [hfac, lor_two_pow _ _ _ hdvd, ← hfac]

/-! ### Closed forms of `deserialize` on canonical indices -/

theorem REMOVAL_MASK_eq : REMOVAL_MASK = 2 ^ 58 - 1 := by
  norm_num [REMOVAL_MASK]

theorem top6_eq (T low : Nat) (hlow : low < 2 ^ 58) :
    (T * 2 ^ 58 + low) >>> 58 = T := by
  rw [Nat.shiftRight_eq_div_pow,
    show T * 2 ^ 58 + low = 2 ^ 58 * T + low by ring,
    Nat.mul_add_div (by norm_num), Nat.div_eq_of_lt hlow, Nat.add_zero]

theorem deserialize_world : deserialize 0 = .ok ⟨0, 0, 0, -1⟩ := by
  have h0 : get_resolution 0 = -1 := by
    rw [get_resolution, Nat.shiftRight_eq_div_pow]
    norm_num [getResolutionAux_zero]
  simp [deserialize, h0]

theorem deserialize_canonical_res0 (o : Nat) (ho : o < 12) :
    deserialize (o * 2 ^ 58 + 2 ^ 57) = .ok ⟨o, 0, 0, 0⟩ := by
  have hres := get_resolution_res0 o
  have htop := top6_eq o (2 ^ 57) (by norm_num)
  have h12 : ¬ NUM_ORIGINS ≤ o := by simp only [NUM_ORIGINS]; omega
  simp only [deserialize, hres, htop, h12]
  norm_num [FIRST_HILBERT_RESOLUTION]

theorem deserialize_canonical_res1 (T : Nat) (hT : T / 5 < 12) :
    deserialize (T * 2 ^ 58 + 2 ^ 56) =
      .ok ⟨T / 5, (T + firstQuintant (T / 5)) % 5, 0, 1⟩ := by
  have hres := get_resolution_res1 T
  have htop := top6_eq T (2 ^ 56) (by norm_num)
  have h12 : ¬ NUM_ORIGINS ≤ T / 5 := by simp only [NUM_ORIGINS]; omega
  simp only [deserialize, hres, htop, h12]
  norm_num [FIRST_HILBERT_RESOLUTION]

theorem low_bits_lt (s m : Nat) (hm : m ≤ 28) (hs : s < 4 ^ m) :
    s * 2 ^ (58 - 2 * m) + 2 ^ (57 - 2 * m) < 2 ^ 58 := by
  have h4m : (4 : Nat) ^ m = 2 ^ (2 * m) := by
    rw [show (4 : Nat) = 2 ^ 2 by norm_num, ← pow_mul]
  rw [h4m] at hs
  have hmul : (s + 1) * 2 ^ (58 - 2 * m) ≤ 2 ^ (2 * m) * 2 ^ (58 - 2 * m) :=
    Nat.mul_le_mul_right _ (by omega)
  have hpow : (2:Nat) ^ (2 * m) * 2 ^ (58 - 2 * m) = 2 ^ 58 := by
    rw [← pow_add]
    congr 1
    omega
  have hsum : (s + 1) * 2 ^ (58 - 2 * m) =
      s * 2 ^ (58 - 2 * m) + 2 ^ (58 - 2 * m) := by ring
  have h3 : (2:Nat) ^ (57 - 2 * m) < 2 ^ (58 - 2 * m) :=
    Nat.pow_lt_pow_right (by norm_num) (by omega)
  omega

theorem deserialize_canonical_hilbert (T s m : Nat) (hT : T / 5 < 12)
    (hm1 : 1 ≤ m) (hm28 : m ≤ 28) (hs : s < 4 ^ m) :
    deserialize (T * 2 ^ 58 + s * 2 ^ (58 - 2 * m) + 2 ^ (57 - 2 * m)) =
      .ok ⟨T / 5, (T + firstQuintant (T / 5)) % 5, s, (m : Int) + 1⟩ := by
  have hlow := low_bits_lt s m hm28 hs
  have hres := get_resolution_hilbert T s m hm1 hm28
  have htop : (T * 2 ^ 58 + s * 2 ^ (58 - 2 * m) + 2 ^ (57 - 2 * m)) >>> 58 = T := by
    rw [Nat.add_assoc]
    exact top6_eq T _ hlow
  have h12 : ¬ NUM_ORIGINS ≤ T / 5 := by simp only [NUM_ORIGINS]; omega
  have hextract : extractS (T * 2 ^ 58 + s * 2 ^ (58 - 2 * m) + 2 ^ (57 - 2 * m))
      ((m : Int) + 1) = s := by
    rw [extractS]
    have he : ((m : Int) + 1 - FIRST_HILBERT_RESOLUTION + 1).toNat = m := by
      simp only [FIRST_HILBERT_RESOLUTION]
      omega
    simp only [he, REMOVAL_MASK_eq, HILBERT_START_BIT]
    rw [Nat.and_pow_two_sub_one_eq_mod, Nat.add_assoc,
      show T * 2 ^ 58 + (s * 2 ^ (58 - 2 * m) + 2 ^ (57 - 2 * m)) =
        2 ^ 58 * T + (s * 2 ^ (58 - 2 * m) + 2 ^ (57 - 2 * m)) by ring,
      Nat.mul_add_mod, Nat.mod_eq_of_lt hlow, Nat.shiftRight_eq_div_pow,
      show s * 2 ^ (58 - 2 * m) + 2 ^ (57 - 2 * m) =
        2 ^ (58 - 2 * m) * s + 2 ^ (57 - 2 * m) by ring,
      Nat.mul_add_div (Nat.pos_pow_of_pos _ (by norm_num)),
      Nat.div_eq_of_lt (Nat.pow_lt_pow_right (by norm_num) (by omega)),
      Nat.add_zero]
  have hne1 : ¬ ((m : Int) + 1) = -1 := by omega
  have hne0 : ¬ ((m : Int) + 1) = 0 := by omega
  have hge2 : ¬ ((m : Int) + 1) < FIRST_HILBERT_RESOLUTION := by
    simp only [FIRST_HILBERT_RESOLUTION]
    omega
  simp only [deserialize, hres, htop, h12, hextract, hne1, hne0, hge2,
    if_neg hne1, if_neg hne0, if_neg hge2, if_false]

theorem get_resolution_le (index : Nat) : get_resolution index ≤ 29 := by
  have := getResolutionAux_le 30 (index >>> 1)
  rw [get_resolution]
  omega

theorem get_resolution_ge (index : Nat) : -1 ≤ get_resolution index := by
  rw [get_resolution]
  omega

theorem get_resolution_zero : get_resolution 0 = -1 := by
  rw [get_resolution, Nat.shiftRight_eq_div_pow]
  norm_num [getResolutionAux_zero]

theorem extractS_lt (index : Nat) (res : Int) (h2 : 2 ≤ res) :
    extractS index res < 4 ^ (res - 1).toNat := by
  obtain ⟨m, hm⟩ : ∃ m : Nat, (res - 1).toNat = m := ⟨_, rfl⟩
  have he : (res - FIRST_HILBERT_RESOLUTION + 1).toNat = m := by
    simp only [FIRST_HILBERT_RESOLUTION]
    omega
  rw [extractS, he, hm]
  simp only [HILBERT_START_BIT, REMOVAL_MASK_eq]
  rw [Nat.and_pow_two_sub_one_eq_mod, Nat.shiftRight_eq_div_pow]
  have hmod : index % 2 ^ 58 < 2 ^ 58 := Nat.mod_lt _ (by norm_num)
  have h4m : (4 : Nat) ^ m = 2 ^ (2 * m) := by
    rw [show (4 : Nat) = 2 ^ 2 by norm_num, ← pow_mul]
  rw [h4m, Nat.div_lt_iff_lt_mul (Nat.pos_pow_of_pos _ (by norm_num)),
    ← pow_add]
  calc index % 2 ^ 58 < 2 ^ 58 := hmod
    _ ≤ 2 ^ (2 * m + (58 - 2 * m)) := Nat.pow_le_pow_right (by norm_num) (by omega)

/-! ### Claim theorems: totality of `get_resolution` and the
serialize/deserialize resolution round trip -/

/-- **C10.** `get_resolution` is total: the scanning loop terminates (the
Lean embedding is structurally recursive), the result always lies in
`[-1, 29]` — in particular resolution 30 is never returned — and
`get_resolution 0 = -1` is the WORLD_CELL sentinel. -/
theorem C10_get_resolution_total :
    (∀ index : Nat, -1 ≤ get_resolution index ∧ get_resolution index ≤ 29) ∧
      get_resolution 0 = -1 :=
  ⟨fun index => ⟨get_resolution_ge index, get_resolution_le index⟩,
    get_resolution_zero⟩

theorem deserialize_eq_world (index : Nat)
    (h : get_resolution index = -1) :
    deserialize index = .ok ⟨0, 0, 0, -1⟩ := by
  simp only [deserialize, h]
  norm_num

theorem deserialize_eq_res0 (index : Nat) (h0 : get_resolution index = 0)
    (ho : index >>> 58 < 12) :
    deserialize index = .ok ⟨index >>> 58, 0, 0, 0⟩ := by
  simp only [deserialize, h0]
  norm_num [NUM_ORIGINS, FIRST_HILBERT_RESOLUTION, not_le.mpr ho]

theorem deserialize_eq_res0_err (index : Nat) (h0 : get_resolution index = 0)
    (ho : 12 ≤ index >>> 58) :
    deserialize index = .err ("Could not parse origin: "
      ++ toString (index >>> 58)) := by
  simp only [deserialize, h0]
  norm_num [NUM_ORIGINS, ho]

theorem deserialize_eq_res1 (index : Nat) (h1 : get_resolution index = 1)
    (ho : index >>> 58 / 5 < 12) :
    deserialize index = .ok ⟨index >>> 58 / 5,
      (index >>> 58 + firstQuintant (index >>> 58 / 5)) % 5, 0, 1⟩ := by
  simp only [deserialize, h1]
  norm_num [NUM_ORIGINS, FIRST_HILBERT_RESOLUTION, not_le.mpr ho]

theorem deserialize_eq_hilbert_of (index : Nat)
    (h2 : 2 ≤ get_resolution index) (ho : index >>> 58 / 5 < 12) :
    deserialize index = .ok ⟨index >>> 58 / 5,
      (index >>> 58 + firstQuintant (index >>> 58 / 5)) % 5,
      extractS index (get_resolution index), get_resolution index⟩ := by
  have hne1 : ¬ get_resolution index = -1 := by omega
  have hne0 : ¬ get_resolution index = 0 := by omega
  have hnlt : ¬ get_resolution index < FIRST_HILBERT_RESOLUTION := by
    simp only [FIRST_HILBERT_RESOLUTION]
    omega
  simp only [deserialize, if_neg hne1, if_neg hne0,
    if_neg (not_le.mpr ho), if_neg hnlt]
  rw [if_neg (show ¬ NUM_ORIGINS ≤ index >>> 58 / 5 by
    simp only [NUM_ORIGINS]; omega)]

theorem deserialize_eq_err_pos (index : Nat)
    (hneg : ¬ get_resolution index = -1) (h0 : ¬ get_resolution index = 0)
    (ho : 12 ≤ index >>> 58 / 5) :
    deserialize index = .err ("Could not parse origin: "
      ++ toString (index >>> 58)) := by
  simp only [deserialize, if_neg hneg, if_neg h0]
  norm_num [NUM_ORIGINS, ho]

/-- Inversion principle for `deserialize index = .ok cell`: the four
shapes a decoded cell can take, by resolution class. -/
theorem deserialize_ok_cases (index : Nat) (cell : A5Cell)
    (h : deserialize index = .ok cell) :
    (get_resolution index = -1 ∧ cell = ⟨0, 0, 0, -1⟩) ∨
    (get_resolution index = 0 ∧ index >>> 58 < 12 ∧
      cell = ⟨index >>> 58, 0, 0, 0⟩) ∨
    (get_resolution index = 1 ∧ index >>> 58 / 5 < 12 ∧
      cell = ⟨index >>> 58 / 5,
        (index >>> 58 + firstQuintant (index >>> 58 / 5)) % 5, 0, 1⟩) ∨
    (2 ≤ get_resolution index ∧ get_resolution index ≤ 29 ∧
      index >>> 58 / 5 < 12 ∧
      cell = ⟨index >>> 58 / 5,
        (index >>> 58 + firstQuintant (index >>> 58 / 5)) % 5,
        extractS index (get_resolution index), get_resolution index⟩) := by
  have hle := get_resolution_le index
  have hge := get_resolution_ge index
  by_cases hneg : get_resolution index = -1
  · rw [deserialize_eq_world index hneg, RResult.ok.injEq] at h
    exact Or.inl ⟨hneg, h.symm⟩
  · by_cases h0 : get_resolution index = 0
    · by_cases ho : index >>> 58 < 12
      · rw [deserialize_eq_res0 index h0 ho, RResult.ok.injEq] at h
        exact Or.inr (Or.inl ⟨h0, ho, h.symm⟩)
      · rw [deserialize_eq_res0_err index h0 (by omega)] at h
        exact absurd h (by simp)
    · by_cases ho : index >>> 58 / 5 < 12
      · by_cases h1 : get_resolution index = 1
        · rw [deserialize_eq_res1 index h1 ho, RResult.ok.injEq] at h
          exact Or.inr (Or.inr (Or.inl ⟨h1, ho, h.symm⟩))
        · have h2 : 2 ≤ get_resolution index := by omega
          rw [deserialize_eq_hilbert_of index h2 ho, RResult.ok.injEq] at h
          exact Or.inr (Or.inr (Or.inr ⟨h2, hle, ho, h.symm⟩))
      · rw [deserialize_eq_err_pos index hneg h0 (by omega)] at h
        exact absurd h (by simp)

/-- **C2.** For every cell index the code accepts whose resolution `r` is
`≥ 0`, re-serializing the deserialized cell succeeds and the resolution of
the result is `r` again. -/
theorem C2_resolution_round_trip (index : Nat) (cell : A5Cell)
    (hok : deserialize index = .ok cell) (hres : 0 ≤ cell.resolution) :
    ∃ out : Nat, serialize cell = .ok out ∧
      get_resolution out = cell.resolution := by
  rcases deserialize_ok_cases index cell hok with
    ⟨hr, hc⟩ | ⟨hr, ho, hc⟩ | ⟨hr, ho, hc⟩ | ⟨h2, h29, ho, hc⟩
  · rw [hc] at hres
    simp at hres
  · subst hc
    exact ⟨_, serialize_res0 _ _ _ ho, get_resolution_res0 _⟩
  · subst hc
    exact ⟨_, serialize_res1 _ _ _ ho, get_resolution_res1 _⟩
  · subst hc
    have hslt := extractS_lt index (get_resolution index) h2
    refine ⟨_, serialize_hilbert _ _ _ _ ho h2 h29 hslt, ?_⟩
    obtain ⟨m, hm⟩ : ∃ m : Nat, (get_resolution index - 1).toNat = m := ⟨_, rfl⟩
    rw [hm, get_resolution_hilbert _ _ m (by omega) (by omega)]
    simp only []
    omega

/-! ### serializeList / childCells support -/

theorem serializeList_ok_length (l : List A5Cell) (out : List Nat)
    (h : serializeList l = .ok out) : out.length = l.length := by
  induction l generalizing out with
  | nil =>
    simp only [serializeList, RResult.ok.injEq] at h
    subst h
    rfl
  | cons c rest ih =>
    simp only [serializeList] at h
    split at h
    · split at h
      · rw [RResult.ok.injEq] at h
        subst h
        simp [ih _ (by assumption)]
      · exact absurd h (by simp)
      · exact absurd h (by simp)
    · exact absurd h (by simp)
    · exact absurd h (by simp)

theorem serializeList_ok_mem (l : List A5Cell) (out : List Nat)
    (h : serializeList l = .ok out) (v : Nat) :
    v ∈ out ↔ ∃ c ∈ l, serialize c = .ok v := by
  induction l generalizing out with
  | nil =>
    simp only [serializeList, RResult.ok.injEq] at h
    subst h
    simp
  | cons c rest ih =>
    simp only [serializeList] at h
    split at h
    · rename_i w hw
      split at h
      · rename_i outRest hrest
        rw [RResult.ok.injEq] at h
        subst h
        simp only [List.mem_cons, ih _ hrest]
        constructor
        · rintro (rfl | ⟨c', hc', hv⟩)
          · exact ⟨c, by simp, hw⟩
          · exact ⟨c', by simp [hc'], hv⟩
        · rintro ⟨c', hc' | hc', hv⟩
          · subst hc'
            rw [hw] at hv
            rw [RResult.ok.injEq] at hv
            exact Or.inl hv.symm
          · exact Or.inr ⟨c', hc', hv⟩
      · exact absurd h (by simp)
      · exact absurd h (by simp)
    · exact absurd h (by simp)
    · exact absurd h (by simp)

theorem serializeList_ok_of_forall (l : List A5Cell)
    (h : ∀ c ∈ l, ∃ v, serialize c = .ok v) :
    ∃ out, serializeList l = .ok out := by
  induction l with
  | nil => exact ⟨[], rfl⟩
  | cons c rest ih =>
    obtain ⟨v, hv⟩ := h c (by simp)
    obtain ⟨out, hout⟩ := ih (fun c' hc' => h c' (by simp [hc']))
    exact ⟨v :: out, by simp [serializeList, hv, hout]⟩

theorem mem_childCells (os segs : List Nat) (sh cnt : Nat) (nr : Int)
    (x : A5Cell) :
    x ∈ childCells os segs sh cnt nr ↔
      ∃ o ∈ os, ∃ sg ∈ segs, ∃ i < cnt, x = ⟨o, sg, sh + i, nr⟩ := by
  simp only [childCells, List.mem_flatMap, List.mem_map, List.mem_range]
  constructor
  · rintro ⟨o, ho, sg, hsg, i, hi, rfl⟩
    exact ⟨o, ho, sg, hsg, i, hi, rfl⟩
  · rintro ⟨o, ho, sg, hsg, i, hi, rfl⟩
    exact ⟨o, ho, sg, hsg, i, hi, rfl⟩

theorem childSegs_length (segs : List Nat) (o sh cnt : Nat) (nr : Int) :
    (segs.flatMap fun seg => (List.range cnt).map fun i =>
      (⟨o, seg, sh + i, nr⟩ : A5Cell)).length = segs.length * cnt := by
  induction segs with
  | nil => simp
  | cons sg segs ihs =>
    simp only [List.flatMap_cons, List.length_append, ihs, List.length_map,
      List.length_range, List.length_cons]
    ring

theorem childCells_length (os segs : List Nat) (sh cnt : Nat) (nr : Int) :
    (childCells os segs sh cnt nr).length = os.length * segs.length * cnt := by
  induction os with
  | nil => simp [childCells]
  | cons o os ih =>
    simp only [childCells, List.flatMap_cons, List.length_append] at *
    rw [ih, childSegs_length, List.length_cons]
    ring

/-! ### serialize-then-deserialize round trips -/

theorem firstQuintant_lt (o : Nat) : firstQuintant o < 5 := by
  rw [firstQuintant]
  rcases lt_or_ge o 12 with h | h
  · interval_cases o <;> decide
  · rw [List.getD_eq_default ORIGIN_ORDER _
      (by simp only [ORIGIN_ORDER, List.length_cons, List.length_nil]; omega)]
    decide

theorem deserialize_serialize_res0 (o seg s v : Nat) (ho : o < 12)
    (h : serialize ⟨o, seg, s, 0⟩ = .ok v) :
    deserialize v = .ok ⟨o, 0, 0, 0⟩ := by
  rw [serialize_res0 o seg s ho, RResult.ok.injEq] at h
  subst h
  exact deserialize_canonical_res0 o ho

theorem deserialize_serialize_res1 (o seg s v : Nat) (ho : o < 12)
    (hseg : seg < 5) (h : serialize ⟨o, seg, s, 1⟩ = .ok v) :
    deserialize v = .ok ⟨o, seg, 0, 1⟩ := by
  rw [serialize_res1 o seg s ho, RResult.ok.injEq] at h
  subst h
  have hfq := firstQuintant_lt o
  have hn : (seg + 5 - firstQuintant o) % 5 < 5 := by omega
  have hdiv : (5 * o + (seg + 5 - firstQuintant o) % 5) / 5 = o := by omega
  rw [deserialize_canonical_res1 _ (by rw [hdiv]; omega), hdiv]
  have hseg' : (5 * o + (seg + 5 - firstQuintant o) % 5 + firstQuintant o) % 5
      = seg := by omega
  rw [hseg']

theorem deserialize_serialize_hilbert (o seg s v : Nat) (res : Int)
    (ho : o < 12) (hseg : seg < 5) (h2 : 2 ≤ res) (h29 : res ≤ 29)
    (hs : s < 4 ^ (res - 1).toNat)
    (h : serialize ⟨o, seg, s, res⟩ = .ok v) :
    deserialize v = .ok ⟨o, seg, s, res⟩ := by
  rw [serialize_hilbert o seg s res ho h2 h29 hs, RResult.ok.injEq] at h
  subst h
  have hfq := firstQuintant_lt o
  have hn : (seg + 5 - firstQuintant o) % 5 < 5 := by omega
  have hdiv : (5 * o + (seg + 5 - firstQuintant o) % 5) / 5 = o := by omega
  obtain ⟨m, hm⟩ : ∃ m : Nat, (res - 1).toNat = m := ⟨_, rfl⟩
  rw [hm] at hs
  rw [hm, deserialize_canonical_hilbert _ _ m (by rw [hdiv]; omega)
    (by omega) (by omega) hs, hdiv]
  have hseg' : (5 * o + (seg + 5 - firstQuintant o) % 5 + firstQuintant o) % 5
      = seg := by omega
  rw [hseg']
  have hres : (m : Int) + 1 = res := by omega
  rw [hres]

/-! ### Unfolding `cell_to_children` -/

theorem cell_to_children_eq_same (index : Nat) (cell : A5Cell)
    (hok : deserialize index = .ok cell) (r' : Int)
    (hr : r' = cell.resolution) (hle : r' ≤ 30) :
    cell_to_children index (some r') = .ok [index] := by
  simp only [cell_to_children, hok, Option.getD_some]
  rw [if_neg (by omega), if_neg (by simp only [MAX_RESOLUTION]; omega),
    if_pos hr]

theorem cell_to_children_eq_expand (index : Nat) (cell : A5Cell)
    (hok : deserialize index = .ok cell) (r' : Int)
    (hlt : cell.resolution < r') (hle : r' ≤ 30)
    (hdiff : r' - max cell.resolution 1 ≤ 20) :
    cell_to_children index (some r') = serializeList (childCells
      (if cell.resolution = -1 then List.range 12 else [cell.origin_id])
      (if (cell.resolution = -1 ∧ 0 < r') ∨ cell.resolution = 0
        then [0, 1, 2, 3, 4] else [cell.segment])
      (cell.s <<< (2 * (r' - max cell.resolution 1).toNat))
      (4 ^ (r' - max cell.resolution 1).toNat) r') := by
  simp only [cell_to_children, hok, Option.getD_some]
  rw [if_neg (by omega), if_neg (by simp only [MAX_RESOLUTION]; omega),
    if_neg (by omega : ¬ r' = cell.resolution)]
  simp only [FIRST_HILBERT_RESOLUTION]
  have hmx : (2 : Int) - 1 = 1 := by norm_num
  rw [hmx]
  by_cases hd : r' - max cell.resolution 1 ≤ 0
  · rw [if_pos hd]
    have ht : (r' - max cell.resolution 1).toNat = 0 := by omega
    rw [ht]
    norm_num
  · rw [if_neg hd, if_neg (by omega : ¬ 20 < r' - max cell.resolution 1)]

/-- Serialization succeeds on any cell with an origin in range, resolution
in `[0, 29]` and (for Hilbert resolutions) `s` within capacity. -/
theorem serialize_ok_wf (o sg s' : Nat) (r' : Int) (ho : o < 12)
    (h0 : 0 ≤ r') (h29 : r' ≤ 29)
    (hs : 2 ≤ r' → s' < 4 ^ (r' - 1).toNat) :
    ∃ v, serialize ⟨o, sg, s', r'⟩ = .ok v := by
  by_cases h2 : 2 ≤ r'
  · exact ⟨_, serialize_hilbert o sg s' r' ho h2 h29 (hs h2)⟩
  · have h01 : r' = 0 ∨ r' = 1 := by omega
    rcases h01 with h | h <;> subst h
    · exact ⟨_, serialize_res0 o sg s' ho⟩
    · exact ⟨_, serialize_res1 o sg s' ho⟩

theorem child_s_bound (s i dt m : Nat) (hs : s < 4 ^ m) (hi : i < 4 ^ dt) :
    s <<< (2 * dt) + i < 4 ^ (m + dt) := by
  rw [Nat.shiftLeft_eq]
  have h2 : (2:Nat) ^ (2 * dt) = 4 ^ dt := by
    rw [show (4:Nat) = 2 ^ 2 by norm_num, ← pow_mul, Nat.mul_comm]
  rw [h2]
  have hmul : (s + 1) * 4 ^ dt ≤ 4 ^ m * 4 ^ dt :=
    Nat.mul_le_mul_right _ (by omega)
  rw [← pow_add] at hmul
  have hexp : (s + 1) * 4 ^ dt = s * 4 ^ dt + 4 ^ dt := by ring
  omega

/-- `cell_to_children` succeeds and produces exactly the advertised number
of children whenever the target resolution strictly exceeds the current
one, stays `≤ 29`, and the resolution difference guard passes. -/
theorem cell_to_children_count (index : Nat) (cell : A5Cell)
    (hok : deserialize index = .ok cell) (r' : Int)
    (hlt : cell.resolution < r') (hle : r' ≤ 29)
    (hdiff : r' - max cell.resolution 1 ≤ 20) :
    ∃ children, cell_to_children index (some r') = .ok children ∧
      children.length =
        (if cell.resolution = -1 then 12 else 1) *
        (if cell.resolution = 0 ∨ (cell.resolution = -1 ∧ 1 ≤ r') then 5
          else 1) *
        4 ^ (max 0 (r' - max cell.resolution 1)).toNat := by
  have hexp := cell_to_children_eq_expand index cell hok r' hlt (by omega) hdiff
  -- bounds on the components of the decoded cell
  have hbounds : cell.origin_id < 12 ∧
      (2 ≤ cell.resolution → cell.s < 4 ^ (cell.resolution - 1).toNat) ∧
      (cell.resolution < 2 → cell.s = 0) ∧ -1 ≤ cell.resolution := by
    rcases deserialize_ok_cases index cell hok with
      ⟨hr, hc⟩ | ⟨hr, hoo, hc⟩ | ⟨hr, hoo, hc⟩ | ⟨h2, h29, hoo, hc⟩ <;> subst hc
    · exact ⟨by norm_num, fun h => absurd h (by norm_num), fun _ => rfl,
        by norm_num⟩
    · exact ⟨hoo, fun h => absurd h (by norm_num), fun _ => rfl, by norm_num⟩
    · exact ⟨hoo, fun h => absurd h (by norm_num), fun _ => rfl, by norm_num⟩
    · exact ⟨hoo, fun _ => extractS_lt index _ h2,
        fun h => absurd (show get_resolution index < 2 from h) (by omega),
        get_resolution_ge index⟩
  obtain ⟨ho12, hsbound, hszero, hge⟩ := hbounds
  have hall : ∀ c ∈ childCells
      (if cell.resolution = -1 then List.range 12 else [cell.origin_id])
      (if (cell.resolution = -1 ∧ 0 < r') ∨ cell.resolution = 0
        then [0, 1, 2, 3, 4] else [cell.segment])
      (cell.s <<< (2 * (r' - max cell.resolution 1).toNat))
      (4 ^ (r' - max cell.resolution 1).toNat) r',
      ∃ v, serialize c = .ok v := by
    intro c hc
    rw [mem_childCells] at hc
    obtain ⟨o, hos, sg, hsg, i, hi, rfl⟩ := hc
    have ho : o < 12 := by
      by_cases hneg : cell.resolution = -1
      · rw [if_pos hneg, List.mem_range] at hos
        exact hos
      · rw [if_neg hneg, List.mem_singleton] at hos
        omega
    refine serialize_ok_wf o sg _ r' ho (by omega) hle fun h2 => ?_
    by_cases hc2 : 2 ≤ cell.resolution
    · have hmx : max cell.resolution 1 = cell.resolution := by omega
      rw [hmx] at hi ⊢
      have hb := child_s_bound cell.s i (r' - cell.resolution).toNat
        (cell.resolution - 1).toNat (hsbound hc2) hi
      have hsum : (cell.resolution - 1).toNat + (r' - cell.resolution).toNat
          = (r' - 1).toNat := by omega
      rw [hsum] at hb
      exact hb
    · have hmx : max cell.resolution 1 = 1 := by omega
      rw [hmx] at hi ⊢
      rw [hszero (by omega), Nat.zero_shiftLeft]
      omega
  obtain ⟨out, hout⟩ := serializeList_ok_of_forall _ hall
  refine ⟨out, by rw [hexp]; exact hout, ?_⟩
  rw [serializeList_ok_length _ _ hout, childCells_length]
  have hcnt : (max 0 (r' - max cell.resolution 1)).toNat =
      (r' - max cell.resolution 1).toNat := by omega
  rw [hcnt]
  by_cases hneg : cell.resolution = -1 <;> by_cases hseg5 :
      (cell.resolution = -1 ∧ 0 < r') ∨ cell.resolution = 0
  · rw [if_pos hneg, if_pos hneg, if_pos hseg5,
      if_pos (by omega : cell.resolution = 0 ∨
        (cell.resolution = -1 ∧ 1 ≤ r'))]
    norm_num
  · rw [if_pos hneg, if_pos hneg, if_neg hseg5,
      if_neg (by omega : ¬ (cell.resolution = 0 ∨
        (cell.resolution = -1 ∧ 1 ≤ r')))]
    norm_num
  · rw [if_neg hneg, if_neg hneg, if_pos hseg5,
      if_pos (by omega : cell.resolution = 0 ∨
        (cell.resolution = -1 ∧ 1 ≤ r'))]
    norm_num
  · rw [if_neg hneg, if_neg hneg, if_neg hseg5,
      if_neg (by omega : ¬ (cell.resolution = 0 ∨
        (cell.resolution = -1 ∧ 1 ≤ r')))]
    norm_num

/-- **C2 (witness).** The round trip at the concrete index `2^55`
(resolution 2, origin 0, segment 4). -/
theorem C2_resolution_round_trip_witness :
    deserialize (2 ^ 55) = .ok ⟨0, 4, 0, 2⟩ ∧
    (0 : Int) ≤ (⟨0, 4, 0, 2⟩ : A5Cell).resolution ∧
    ∃ out : Nat, serialize (⟨0, 4, 0, 2⟩ : A5Cell) = .ok out ∧
      get_resolution out = (⟨0, 4, 0, 2⟩ : A5Cell).resolution :=
  ⟨by decide, by decide,
    C2_resolution_round_trip (2 ^ 55) ⟨0, 4, 0, 2⟩ (by decide) (by decide)⟩

/-- **C4 (counterexample).** At resolution `30 = MAX_RESOLUTION` the input
`⟨origin 0, segment 4, s = 0⟩` is well-formed in the sense of the claim
(origin < 12, segment < 5, resolution ∈ [-1, 30], s < 4^29), yet
`serialize` panics: the marker-bit shift `HILBERT_START_BIT - r = 58 - 59`
underflows.  The claim that serialization stays panic-free up to and
including resolution 30 is therefore false. -/
theorem C4_serialize_no_panic_counterexample :
    (0 : Nat) < 12 ∧ (4 : Nat) < 5 ∧
    (-1 : Int) ≤ 30 ∧ (30 : Int) ≤ 30 ∧ (0 : Nat) < 4 ^ 29 ∧
    serialize ⟨0, 4, 0, 30⟩ = .panic := by
  refine ⟨by norm_num, by norm_num, by norm_num, by norm_num, by positivity, ?_⟩
  decide

/-- **C4 (amended).** `serialize` never panics — indeed it returns `Ok` —
on well-formed input with resolution at most 29: for every `A5Cell` with
`origin_id < 12`, `segment < 5`, resolution in `[-1, 29]`, and (when the
resolution is ≥ 2) `s < 4^(resolution-1)`, `serialize` returns a value.
(At resolution 30 the marker shift underflows and the code panics, see the
counterexample.) -/
theorem C4_serialize_no_panic (cell : A5Cell) (ho : cell.origin_id < 12)
    (hseg : cell.segment < 5) (hr1 : -1 ≤ cell.resolution)
    (hr2 : cell.resolution ≤ 29)
    (hs : 2 ≤ cell.resolution → cell.s < 4 ^ (cell.resolution - 1).toNat) :
    ∃ v, serialize cell = .ok v := by
  obtain ⟨o, sg, s, r⟩ := cell
  simp only [] at ho hseg hr1 hr2 hs
  by_cases hneg : r = -1
  · subst hneg
    exact ⟨0, serialize_res_neg1 o sg s⟩
  · exact serialize_ok_wf o sg s r ho (by omega) hr2 hs

/-- **C4 (witness).** Serialization succeeds at resolution 29. -/
theorem C4_serialize_no_panic_witness :
    (⟨0, 4, 0, 29⟩ : A5Cell).origin_id < 12 ∧
    (⟨0, 4, 0, 29⟩ : A5Cell).segment < 5 ∧
    (-1 : Int) ≤ (⟨0, 4, 0, 29⟩ : A5Cell).resolution ∧
    (⟨0, 4, 0, 29⟩ : A5Cell).resolution ≤ 29 ∧
    ∃ v, serialize (⟨0, 4, 0, 29⟩ : A5Cell) = .ok v :=
  ⟨by decide, by decide, by decide, by decide,
    C4_serialize_no_panic ⟨0, 4, 0, 29⟩ (by decide) (by decide) (by decide)
      (by decide) (fun _ => by positivity)⟩

/-- **C5 (counterexample).** The claim's child-count formula fails when
the target resolution equals the current one: `cell_to_children` on the
WORLD_CELL with target resolution `-1` returns the single-element vector
`[0]`, not the `12 * 1 * 4^0 = 12` cells the formula demands. -/
theorem C5_children_count_counterexample :
    cell_to_children 0 (some (-1)) = .ok [0] ∧
    ([(0 : Nat)].length ≠
      (if (-1 : Int) = -1 then 12 else 1) *
      (if (-1 : Int) = 0 ∨ ((-1 : Int) = -1 ∧ (1 : Int) ≤ -1) then 5 else 1) *
      4 ^ (max 0 ((-1 : Int) - max (-1 : Int) 1)).toNat) := by
  constructor
  · decide
  · decide

/-- **C5 (amended).** For every cell index the code accepts, with current
resolution `r` and target `r'` satisfying `r < r' ≤ 29` and the overflow
guard `r' - max(r, 1) ≤ 20`, `cell_to_children` returns `Ok` of a vector
with exactly `(12 if r = -1 else 1) * (5 if r = 0 or (r = -1 and r' ≥ 1)
else 1) * 4^(max 0 (r' - max r 1))` children.  (When `r' = r` the code
returns the one-element vector `[c]` — see the counterexample; when
`r' - max r 1 > 20` it returns an error; at `r' = 30` serialization of the
children panics.) -/
theorem C5_children_count (index : Nat) (cell : A5Cell) (r' : Int)
    (hok : deserialize index = .ok cell)
    (hlt : cell.resolution < r') (hle : r' ≤ 29)
    (hdiff : r' - max cell.resolution 1 ≤ 20) :
    ∃ children, cell_to_children index (some r') = .ok children ∧
      children.length =
        (if cell.resolution = -1 then 12 else 1) *
        (if cell.resolution = 0 ∨ (cell.resolution = -1 ∧ 1 ≤ r') then 5
          else 1) *
        4 ^ (max 0 (r' - max cell.resolution 1)).toNat :=
  cell_to_children_count index cell hok r' hlt hle hdiff

/-- **C5 (witness).** The WORLD_CELL expanded to resolution 0 yields
exactly the 12 resolution-0 cells. -/
theorem C5_children_count_witness :
    deserialize 0 = .ok ⟨0, 0, 0, -1⟩ ∧
    ((⟨0, 0, 0, -1⟩ : A5Cell).resolution < (0 : Int)) ∧
    ∃ children, cell_to_children 0 (some 0) = .ok children ∧
      children.length =
        (if (⟨0, 0, 0, -1⟩ : A5Cell).resolution = -1 then 12 else 1) *
        (if (⟨0, 0, 0, -1⟩ : A5Cell).resolution = 0 ∨
          ((⟨0, 0, 0, -1⟩ : A5Cell).resolution = -1 ∧ (1 : Int) ≤ 0) then 5
          else 1) *
        4 ^ (max 0 ((0 : Int) - max (⟨0, 0, 0, -1⟩ : A5Cell).resolution 1)).toNat :=
  ⟨by decide, by decide,
    C5_children_count 0 ⟨0, 0, 0, -1⟩ 0 (by decide) (by decide) (by decide)
      (by decide)⟩

/-- **C6 (counterexample).** The quintant cell `2^56` (origin 0, top 6
bits 0) decodes to segment 4, and `(segment + first_quintant) mod 5 =
(4 + 4) mod 5 = 3` differs from `top6 mod 5 = 0`: the claimed congruence
`segment + first_quintant ≡ top6 (mod 5)` is false. -/
theorem C6_segment_invariant_counterexample :
    deserialize (1 <<< 56) = .ok ⟨0, 4, 0, 1⟩ ∧
    ¬ (((⟨0, 4, 0, 1⟩ : A5Cell).segment +
        firstQuintant (⟨0, 4, 0, 1⟩ : A5Cell).origin_id) % 5 =
      ((1 <<< 56 : Nat) >>> 58) % 5) := by
  constructor
  · decide
  · decide

/-- **C6 (amended).** The origin-relative segment offset satisfies
`(segment - first_quintant) ≡ top6 (mod 5)` (not `segment +
first_quintant`): for every accepted index of resolution ≥ 1 the decoded
segment satisfies `(segment + 5 - first_quintant) mod 5 = top6 mod 5`,
and `serialize` re-establishes the same relation when packing the top 6
bits as `5*origin_id + (segment - first_quintant + 5) mod 5`. -/
theorem C6_segment_invariant (index : Nat) (cell : A5Cell)
    (hok : deserialize index = .ok cell) (hres : 1 ≤ cell.resolution) :
    (cell.segment + 5 - firstQuintant cell.origin_id) % 5 =
      (index >>> 58) % 5 ∧
    ∀ v, serialize cell = .ok v →
      (cell.segment + 5 - firstQuintant cell.origin_id) % 5 =
        (v >>> 58) % 5 := by
  rcases deserialize_ok_cases index cell hok with
    ⟨hr, hc⟩ | ⟨hr, hoo, hc⟩ | ⟨hr, hoo, hc⟩ | ⟨h2, h29, hoo, hc⟩
  · rw [hc] at hres
    simp at hres
  · rw [hc] at hres
    simp at hres
  · subst hc
    have hfq := firstQuintant_lt (index >>> 58 / 5)
    constructor
    · simp only []
      omega
    · intro v hv
      rw [serialize_res1 _ _ _ hoo, RResult.ok.injEq] at hv
      subst hv
      rw [top6_eq _ _ (by norm_num)]
      simp only []
      have hn : (((index >>> 58 + firstQuintant (index >>> 58 / 5)) % 5 + 5 -
          firstQuintant (index >>> 58 / 5)) % 5) < 5 := by omega
      omega
  · subst hc
    have hfq := firstQuintant_lt (index >>> 58 / 5)
    constructor
    · simp only []
      omega
    · intro v hv
      rw [serialize_hilbert _ _ _ _ hoo h2 h29
        (extractS_lt index _ h2), RResult.ok.injEq] at hv
      subst hv
      rw [Nat.add_assoc, top6_eq _ _ (low_bits_lt _ _ (by omega)
        (extractS_lt index _ h2))]
      simp only []
      omega

/-- **C6 (witness).** The amended congruence at the quintant cell `2^56`. -/
theorem C6_segment_invariant_witness :
    deserialize (1 <<< 56) = .ok ⟨0, 4, 0, 1⟩ ∧
    (1 : Int) ≤ (⟨0, 4, 0, 1⟩ : A5Cell).resolution ∧
    ((⟨0, 4, 0, 1⟩ : A5Cell).segment + 5 -
        firstQuintant (⟨0, 4, 0, 1⟩ : A5Cell).origin_id) % 5 =
      (((1 <<< 56 : Nat)) >>> 58) % 5 :=
  ⟨by decide, by decide,
    (C6_segment_invariant (1 <<< 56) ⟨0, 4, 0, 1⟩ (by decide) (by decide)).1⟩

/-! ### cell_to_parent and the children/parent round trip -/

theorem cell_to_parent_eq_same (child : Nat) (ccell : A5Cell)
    (hok : deserialize child = .ok ccell) (pr : Int) (h0 : 0 ≤ pr)
    (heq : pr = ccell.resolution) :
    cell_to_parent child (some pr) = .ok child := by
  simp only [cell_to_parent, hok, Option.getD_some]
  rw [if_neg (by omega), if_neg (by omega), if_pos heq]

theorem cell_to_parent_eq_shift (child : Nat) (ccell : A5Cell)
    (hok : deserialize child = .ok ccell) (pr : Int) (h0 : 0 ≤ pr)
    (hlt : pr < ccell.resolution) :
    cell_to_parent child (some pr) = serialize ⟨ccell.origin_id,
      ccell.segment, ccell.s >>> (2 * (ccell.resolution - pr).toNat), pr⟩ := by
  simp only [cell_to_parent, hok, Option.getD_some]
  rw [if_neg (by omega), if_neg (by omega), if_neg (by omega)]

theorem cell_to_children_eq_diff_err (index : Nat) (cell : A5Cell)
    (hok : deserialize index = .ok cell) (r' : Int)
    (hlt : cell.resolution < r') (hle : r' ≤ 30)
    (hdiff : 20 < r' - max cell.resolution 1) :
    cell_to_children index (some r') = .err "Resolution difference too large" := by
  simp only [cell_to_children, hok, Option.getD_some]
  rw [if_neg (by omega), if_neg (by simp only [MAX_RESOLUTION]; omega),
    if_neg (by omega : ¬ r' = cell.resolution)]
  simp only [FIRST_HILBERT_RESOLUTION]
  rw [show (2 : Int) - 1 = 1 by norm_num, if_neg (by omega), if_pos hdiff]

theorem serialize_res30_not_ok (o sg s' v : Nat) (ho : o < 12) :
    serialize ⟨o, sg, s', 30⟩ ≠ .ok v := by
  intro h
  simp only [serialize, MAX_RESOLUTION, FIRST_HILBERT_RESOLUTION,
    HILBERT_START_BIT, NUM_ORIGINS,
    if_neg (show ¬ (30:Int) < 30 by norm_num),
    if_neg (show ¬ (30:Int) = -1 by norm_num),
    if_neg (show ¬ (30:Int) < 2 by norm_num),
    if_neg (show ¬ (12:Nat) ≤ o by omega),
    if_pos (show (2:Int) ≤ 30 by norm_num)] at h
  split at h
  · exact absurd h (by simp)
  · rw [if_pos (by omega : (58:Nat) < 2 * (1 + (30:Int) - 2).toNat + 1)] at h
    exact absurd h (by simp)

theorem shiftLeft_add_shiftRight (s i dt : Nat) (hi : i < 4 ^ dt) :
    (s <<< (2 * dt) + i) >>> (2 * dt) = s := by
  rw [Nat.shiftLeft_eq, Nat.shiftRight_eq_div_pow]
  have h4 : (2:Nat) ^ (2 * dt) = 4 ^ dt := by
    rw [show (4:Nat) = 2 ^ 2 by norm_num, ← pow_mul, Nat.mul_comm]
  rw [h4, show s * 4 ^ dt + i = 4 ^ dt * s + i by ring,
    Nat.mul_add_div (by positivity), Nat.div_eq_of_lt hi, Nat.add_zero]

theorem small_shiftRight_eq_zero (i a b : Nat) (h : i < 4 ^ a) (hab : a ≤ b) :
    i >>> (2 * b) = 0 := by
  rw [Nat.shiftRight_eq_div_pow]
  apply Nat.div_eq_of_lt
  calc i < 4 ^ a := h
    _ ≤ 4 ^ b := Nat.pow_le_pow_right (by norm_num) hab
    _ = 2 ^ (2 * b) := by
      rw [show (4:Nat) = 2 ^ 2 by norm_num, ← pow_mul, Nat.mul_comm]

/-- Component bounds of any decoded cell. -/
theorem deserialize_ok_bounds (index : Nat) (cell : A5Cell)
    (hok : deserialize index = .ok cell) :
    cell.origin_id < 12 ∧ cell.segment < 5 ∧
    (2 ≤ cell.resolution → cell.s < 4 ^ (cell.resolution - 1).toNat) ∧
    (cell.resolution < 2 → cell.s = 0) ∧
    -1 ≤ cell.resolution ∧ cell.resolution ≤ 29 := by
  rcases deserialize_ok_cases index cell hok with
    ⟨hr, hc⟩ | ⟨hr, hoo, hc⟩ | ⟨hr, hoo, hc⟩ | ⟨h2, h29, hoo, hc⟩ <;> subst hc
  · exact ⟨by norm_num, by norm_num, fun h => absurd h (by norm_num),
      fun _ => rfl, by norm_num, by norm_num⟩
  · exact ⟨hoo, by norm_num, fun h => absurd h (by norm_num), fun _ => rfl,
      by norm_num, by norm_num⟩
  · exact ⟨hoo, Nat.mod_lt _ (by norm_num),
      fun h => absurd h (by norm_num), fun _ => rfl, by norm_num, by norm_num⟩
  · exact ⟨hoo, Nat.mod_lt _ (by norm_num), fun _ => extractS_lt index _ h2,
      fun h => absurd (show get_resolution index < 2 from h) (by omega),
      get_resolution_ge index, get_resolution_le index⟩

/-- **C3.** For every valid (round-tripping) cell index at resolution
`r ≥ 0` and target resolution `r'` with `r ≤ r' ≤ 30` for which
`cell_to_children` returns `Ok`, every child of the returned vector maps
back to the original cell under `cell_to_parent` at resolution `r`. -/
theorem C3_children_parent_round_trip (index : Nat) (cell : A5Cell)
    (r' : Int) (hok : deserialize index = .ok cell)
    (hvalid : serialize cell = .ok index) (hres : 0 ≤ cell.resolution)
    (hr1 : cell.resolution ≤ r') (hr2 : r' ≤ 30) (children : List Nat)
    (hch : cell_to_children index (some r') = .ok children) :
    ∀ child ∈ children,
      cell_to_parent child (some cell.resolution) = .ok index := by
  intro child hmem
  obtain ⟨co, cseg, cs, cres⟩ := cell
  obtain ⟨ho12, hseg5, hsbound, hszero, hgem1, hle29⟩ :=
    deserialize_ok_bounds index _ hok
  simp only [] at ho12 hseg5 hsbound hszero hgem1 hle29 hres hr1 ⊢
  by_cases heq : r' = cres
  · rw [cell_to_children_eq_same index _ hok r' heq (by omega),
      RResult.ok.injEq] at hch
    subst hch
    rw [List.mem_singleton] at hmem
    subst hmem
    exact cell_to_parent_eq_same child _ hok cres hres rfl
  · have hlt : cres < r' := by omega
    by_cases hdiff : r' - max cres 1 ≤ 20
    · rw [cell_to_children_eq_expand index _ hok r' hlt hr2 hdiff] at hch
      simp only [] at hch
      obtain ⟨c, hcmem, hser⟩ := (serializeList_ok_mem _ _ hch child).mp hmem
      rw [mem_childCells] at hcmem
      obtain ⟨o, hos, sg, hsg, i, hi, rfl⟩ := hcmem
      rw [if_neg (by omega : ¬ cres = -1), List.mem_singleton] at hos
      subst hos
      have hsg5 : sg < 5 := by
        by_cases h00 : (cres = -1 ∧ 0 < r') ∨ cres = 0
        · rw [if_pos h00] at hsg
          simp only [List.mem_cons, List.mem_singleton, List.not_mem_nil,
            or_false] at hsg
          omega
        · rw [if_neg h00, List.mem_singleton] at hsg
          omega
      have hr29 : r' ≤ 29 := by
        by_contra h30
        rw [show r' = 30 by omega] at hser
        exact serialize_res30_not_ok _ _ _ _ ho12 hser
      obtain ⟨dt, hdt⟩ : ∃ dt : Nat, (r' - max cres 1).toNat = dt := ⟨_, rfl⟩
      rw [hdt] at hi hser
      by_cases hc2 : 2 ≤ cres
      · -- Hilbert-resolution parent
        have hmx : max cres 1 = cres := by omega
        rw [hmx] at hdt
        have hsb : cs <<< (2 * dt) + i < 4 ^ (r' - 1).toNat := by
          have hb := child_s_bound cs i dt (cres - 1).toNat (hsbound hc2) hi
          rw [show (cres - 1).toNat + dt = (r' - 1).toNat by omega] at hb
          exact hb
        have hdes := deserialize_serialize_hilbert _ _ _ _ r' ho12 hsg5
          (by omega) hr29 hsb hser
        rw [cell_to_parent_eq_shift child _ hdes cres hres
          (by simp only []; omega)]
        simp only []
        rw [show (r' - cres).toNat = dt by omega,
          shiftLeft_add_shiftRight cs i dt hi]
        have hsegeq : sg = cseg := by
          rw [if_neg (by omega : ¬ ((cres = -1 ∧ 0 < r') ∨ cres = 0)),
            List.mem_singleton] at hsg
          exact hsg
        rw [hsegeq]
        exact hvalid
      · -- parent at resolution 0 or 1: the shifted s collapses to 0
        have hmx : max cres 1 = 1 := by omega
        rw [hmx] at hdt
        have hs0 : cs = 0 := hszero (by omega)
        subst hs0
        rw [Nat.zero_shiftLeft, Nat.zero_add] at hser
        have hib : i < 4 ^ (r' - 1).toNat := by rw [hdt]; exact hi
        by_cases hrr1 : r' = 1
        · -- child at resolution 1, parent at resolution 0
          have hres0 : cres = 0 := by omega
          subst hres0
          subst hrr1
          have hi0 : i = 0 := by
            norm_num at hib
            omega
          subst hi0
          have hdes := deserialize_serialize_res1 _ _ _ _ ho12 hsg5 hser
          rw [cell_to_parent_eq_shift child _ hdes 0 (le_refl 0)
            (by simp only []; omega)]
          simp only []
          rw [Nat.zero_shiftRight, serialize_res0 _ _ _ ho12]
          rw [serialize_res0 _ _ _ ho12] at hvalid
          exact hvalid
        · -- child at Hilbert resolution ≥ 2
          have hr2' : 2 ≤ r' := by omega
          have hdes := deserialize_serialize_hilbert _ _ _ _ r' ho12 hsg5
            hr2' hr29 hib hser
          rw [cell_to_parent_eq_shift child _ hdes cres hres
            (by simp only []; omega)]
          simp only []
          rw [small_shiftRight_eq_zero i (r' - 1).toNat (r' - cres).toNat
            hib (by omega)]
          by_cases hres0 : cres = 0
          · subst hres0
            rw [serialize_res0 _ _ _ ho12]
            rw [serialize_res0 _ _ _ ho12] at hvalid
            exact hvalid
          · have hres1 : cres = 1 := by omega
            subst hres1
            have hsegeq : sg = cseg := by
              rw [if_neg (by omega : ¬ (((1:Int) = -1 ∧ 0 < r') ∨
                (1:Int) = 0)), List.mem_singleton] at hsg
              exact hsg
            subst hsegeq
            rw [serialize_res1 _ _ _ ho12]
            rw [serialize_res1 _ _ _ ho12] at hvalid
            exact hvalid
    · rw [cell_to_children_eq_diff_err index _ hok r' hlt hr2
        (by simp only []; omega)] at hch
      exact absurd hch (by simp)

/-- **C3 (witness).** Children of the resolution-0 cell of origin 0 at
resolution 1 all map back to it. -/
theorem C3_children_parent_round_trip_witness :
    deserialize (2 ^ 57) = .ok ⟨0, 0, 0, 0⟩ ∧
    serialize (⟨0, 0, 0, 0⟩ : A5Cell) = .ok (2 ^ 57) ∧
    cell_to_children (2 ^ 57) (some 1) =
      .ok [2 ^ 58 + 2 ^ 56, 2 * 2 ^ 58 + 2 ^ 56, 3 * 2 ^ 58 + 2 ^ 56,
        4 * 2 ^ 58 + 2 ^ 56, 2 ^ 56] ∧
    ∀ child ∈ [2 ^ 58 + 2 ^ 56, 2 * 2 ^ 58 + 2 ^ 56, 3 * 2 ^ 58 + 2 ^ 56,
        4 * 2 ^ 58 + 2 ^ 56, 2 ^ 56],
      cell_to_parent child (some (⟨0, 0, 0, (0:Int)⟩ : A5Cell).resolution) =
        .ok (2 ^ 57) :=
  ⟨by decide, by decide, by decide,
    C3_children_parent_round_trip (2 ^ 57) ⟨0, 0, 0, 0⟩ 1 (by decide)
      (by decide) (by decide) (by decide) (by decide) _ (by decide)⟩

/-! ### hex.rs: `hex_to_big_int` -/

/-- `hex.rs`: `hex.trim_start_matches("0x")` — repeatedly strips a leading
`"0x"`. -/
def trimStart0x : List Char → List Char
  | [] => []
  | [c] => [c]
  | c1 :: c2 :: rest =>
    if c1 = '0' ∧ c2 = 'x' then trimStart0x rest else c1 :: c2 :: rest

theorem mem_trimStart0x :
    ∀ (cs : List Char) (c : Char), c ∈ cs → c ≠ '0' → c ≠ 'x' →
      c ∈ trimStart0x cs
  | [], c, hc, _, _ => by simp at hc
  | [a], c, hc, _, _ => by rw [trimStart0x]; exact hc
  | c1 :: c2 :: rest, c, hc, h0, hx => by
    rw [trimStart0x]
    split
    · rename_i hpair
      obtain ⟨rfl, rfl⟩ := hpair
      have hcr : c ∈ rest := by
        rcases List.mem_cons.mp hc with rfl | hc2
        · exact absurd rfl h0
        · rcases List.mem_cons.mp hc2 with rfl | hc3
          · exact absurd rfl hx
          · exact hc3
      exact mem_trimStart0x rest c hcr h0 hx
    · exact hc

abbrev Face := ℚ × ℚ

def vtx (l : List Face) (i : Nat) : Face := l.getD i (0, 0)

/-- `PentagonShape::get_area` as a function of the vertex list:
`Σ_i (x_{(i+1) % n} - x_i) * (y_{(i+1) % n} + y_i)`. -/
def areaOf (l : List Face) : ℚ :=
  ∑ i in Finset.range l.length,
    ((vtx l ((i + 1) % l.length)).1 - (vtx l i).1) *
      ((vtx l ((i + 1) % l.length)).2 + (vtx l i).2)

structure PentagonShape where
  vertices : List Face

namespace PentagonShape

def get_area (p : PentagonShape) : ℚ := areaOf p.vertices

/-- `is_winding_correct`: `get_area() >= 0.0`. -/
def is_winding_correct (p : PentagonShape) : Prop := 0 ≤ p.get_area

/-- `PentagonShape::new` (a `Pentagon` is a 5-vertex array; the
winding-enforcement logic is identical for all arities). -/
def new (vertices : List Face) : PentagonShape :=
  if 0 ≤ areaOf vertices then ⟨vertices⟩ else ⟨vertices.reverse⟩

/-- `PentagonShape::new_triangle` (3-vertex array). -/
def new_triangle (vertices : List Face) : PentagonShape :=
  if 0 ≤ areaOf vertices then ⟨vertices⟩ else ⟨vertices.reverse⟩

/-- `PentagonShape::from_vertices`. -/
def from_vertices (vertices : List Face) : PentagonShape :=
  if 0 ≤ areaOf vertices then ⟨vertices⟩ else ⟨vertices.reverse⟩

def scale (p : PentagonShape) (k : ℚ) : PentagonShape :=
  ⟨p.vertices.map fun v => (v.1 * k, v.2 * k)⟩

def rotate180 (p : PentagonShape) : PentagonShape :=
  ⟨p.vertices.map fun v => (-v.1, -v.2)⟩

def reflect_y (p : PentagonShape) : PentagonShape :=
  ⟨(p.vertices.map fun v => (v.1, -v.2)).reverse⟩

def translate (p : PentagonShape) (t : Face) : PentagonShape :=
  ⟨p.vertices.map fun v => (v.1 + t.1, v.2 + t.2)⟩

/-- `PentagonShape::split_edges`: subdivide each edge into `segments`
equal pieces, then re-run the winding check of `from_vertices`. -/
def split_edges (p : PentagonShape) (segments : Nat) : PentagonShape :=
  if segments ≤ 1 then p
  else
    from_vertices ((List.range p.vertices.length).flatMap fun i =>
      let v1 := vtx p.vertices i
      let v2 := vtx p.vertices ((i + 1) % p.vertices.length)
      v1 :: ((List.range (segments - 1)).map fun j =>
        let t : ℚ := (j + 1 : ℚ) / (segments : ℚ)
        (v1.1 + t * (v2.1 - v1.1), v1.2 + t * (v2.2 - v1.2))))

end PentagonShape

/-! ### Signed-area lemmas -/

theorem vtx_map (f : Face → Face) (l : List Face) (i : Nat)
    (h : i < l.length) : vtx (l.map f) i = f (vtx l i) := by
  rw [vtx, vtx, List.getD_eq_getElem _ _ (by simpa using h),
    List.getD_eq_getElem _ _ h, List.getElem_map]

theorem vtx_reverse (l : List Face) (i : Nat) (h : i < l.length) :
    vtx l.reverse i = vtx l (l.length - 1 - i) := by
  rw [vtx, vtx, List.getD_eq_getElem _ _ (by simpa using h),
    List.getD_eq_getElem _ _ (by omega), List.getElem_reverse]

theorem succ_mod_lt (i n : Nat) (h : i < n) : (i + 1) % n < n :=
  Nat.mod_lt _ (by omega)

theorem sum_range_cycle (n : Nat) (f : Nat → ℚ) :
    ∑ i in Finset.range n, f ((i + 1) % n) = ∑ i in Finset.range n, f i := by
  cases n with
  | zero => simp
  | succ m =>
    rw [Finset.sum_range_succ, Finset.sum_range_succ' f m]
    congr 1
    · apply Finset.sum_congr rfl
      intro i hi
      rw [Finset.mem_range] at hi
      rw [Nat.mod_eq_of_lt (by omega)]
    · rw [Nat.mod_self]

theorem areaOf_map_scale (l : List Face) (k : ℚ) :
    areaOf (l.map fun v => (v.1 * k, v.2 * k)) = k ^ 2 * areaOf l := by
  rw [areaOf, areaOf, List.length_map, Finset.mul_sum]
  apply Finset.sum_congr rfl
  intro i hi
  rw [Finset.mem_range] at hi
  rw [vtx_map _ _ _ (succ_mod_lt i _ hi), vtx_map _ _ _ hi]
  ring

theorem areaOf_map_neg (l : List Face) :
    areaOf (l.map fun v => (-v.1, -v.2)) = areaOf l := by
  rw [areaOf, areaOf, List.length_map]
  apply Finset.sum_congr rfl
  intro i hi
  rw [Finset.mem_range] at hi
  rw [vtx_map _ _ _ (succ_mod_lt i _ hi), vtx_map _ _ _ hi]
  ring

theorem areaOf_map_negy (l : List Face) :
    areaOf (l.map fun v => (v.1, -v.2)) = - areaOf l := by
  rw [areaOf, areaOf, List.length_map, ← Finset.sum_neg_distrib]
  apply Finset.sum_congr rfl
  intro i hi
  rw [Finset.mem_range] at hi
  rw [vtx_map _ _ _ (succ_mod_lt i _ hi), vtx_map _ _ _ hi]
  ring

theorem areaOf_translate (l : List Face) (t : Face) :
    areaOf (l.map fun v => (v.1 + t.1, v.2 + t.2)) = areaOf l := by
  rw [areaOf, areaOf, List.length_map]
  have hsplit : ∀ i ∈ Finset.range l.length,
      ((vtx (l.map fun v => (v.1 + t.1, v.2 + t.2))
          ((i + 1) % l.length)).1 -
        (vtx (l.map fun v => (v.1 + t.1, v.2 + t.2)) i).1) *
      ((vtx (l.map fun v => (v.1 + t.1, v.2 + t.2))
          ((i + 1) % l.length)).2 +
        (vtx (l.map fun v => (v.1 + t.1, v.2 + t.2)) i).2) =
      (((vtx l ((i + 1) % l.length)).1 - (vtx l i).1) *
        ((vtx l ((i + 1) % l.length)).2 + (vtx l i).2)) +
      (2 * t.2 * ((vtx l ((i + 1) % l.length)).1 - (vtx l i).1)) := by
    intro i hi
    rw [Finset.mem_range] at hi
    rw [vtx_map _ _ _ (succ_mod_lt i _ hi), vtx_map _ _ _ hi]
    ring
  rw [Finset.sum_congr rfl hsplit, Finset.sum_add_distrib]
  have htel : ∑ i in Finset.range l.length,
      2 * t.2 * ((vtx l ((i + 1) % l.length)).1 - (vtx l i).1) = 0 := by
    have hsub : ∀ i ∈ Finset.range l.length,
        2 * t.2 * ((vtx l ((i + 1) % l.length)).1 - (vtx l i).1) =
        2 * t.2 * (vtx l ((i + 1) % l.length)).1 -
          2 * t.2 * (vtx l i).1 := by
      intro i _
      ring
    rw [Finset.sum_congr rfl hsub, Finset.sum_sub_distrib,
      sum_range_cycle l.length (fun j => 2 * t.2 * (vtx l j).1), sub_self]
  rw [htel, add_zero]

theorem areaOf_reverse (l : List Face) : areaOf l.reverse = - areaOf l := by
  obtain ⟨n, hn⟩ : ∃ n, l.length = n := ⟨_, rfl⟩
  rw [areaOf, areaOf, List.length_reverse, hn]
  cases n with
  | zero => simp
  | succ m =>
    -- reflect the summation index
    rw [show ∑ i in Finset.range (m + 1),
        ((vtx l.reverse ((i + 1) % (m + 1))).1 - (vtx l.reverse i).1) *
          ((vtx l.reverse ((i + 1) % (m + 1))).2 + (vtx l.reverse i).2) =
        ∑ i in Finset.range (m + 1),
        ((vtx l.reverse ((m + 1 - 1 - i + 1) % (m + 1))).1 -
            (vtx l.reverse (m + 1 - 1 - i)).1) *
          ((vtx l.reverse ((m + 1 - 1 - i + 1) % (m + 1))).2 +
            (vtx l.reverse (m + 1 - 1 - i)).2) from
      (Finset.sum_range_reflect _ _).symm]
    -- rewrite each reflected term as the backwards edge i ← pred i
    have hterm : ∀ i ∈ Finset.range (m + 1),
        ((vtx l.reverse ((m + 1 - 1 - i + 1) % (m + 1))).1 -
            (vtx l.reverse (m + 1 - 1 - i)).1) *
          ((vtx l.reverse ((m + 1 - 1 - i + 1) % (m + 1))).2 +
            (vtx l.reverse (m + 1 - 1 - i)).2) =
        ((vtx l ((i + m) % (m + 1))).1 - (vtx l i).1) *
          ((vtx l ((i + m) % (m + 1))).2 + (vtx l i).2) := by
      intro i hi
      rw [Finset.mem_range] at hi
      have hv1 : vtx l.reverse (m + 1 - 1 - i) = vtx l i := by
        rw [vtx_reverse l _ (by omega), hn]
        congr 1
        omega
      by_cases hi0 : i = 0
      · subst hi0
        have e1 : (m + 1 - 1 - 0 + 1) % (m + 1) = 0 := by
          have he : m + 1 - 1 - 0 + 1 = m + 1 := by omega
          rw [he, Nat.mod_self]
        have e2 : (0 + m) % (m + 1) = m := by
          rw [Nat.zero_add, Nat.mod_eq_of_lt (by omega)]
        have hv2 : vtx l.reverse 0 = vtx l m := by
          rw [vtx_reverse l _ (by omega), hn,
            show m + 1 - 1 - 0 = m from by omega]
        rw [e1, e2, hv1, hv2]
      · have e1 : (m + 1 - 1 - i + 1) % (m + 1) = m + 1 - i := by
          rw [Nat.mod_eq_of_lt (by omega)]
          omega
        have e2 : (i + m) % (m + 1) = i - 1 := by
          rw [show i + m = (i - 1) + (m + 1) by omega, Nat.add_mod_right,
            Nat.mod_eq_of_lt (by omega)]
        rw [e1, e2, hv1]
        have hv2 : vtx l.reverse (m + 1 - i) = vtx l (i - 1) := by
          rw [vtx_reverse l _ (by omega), hn]
          congr 1
          omega
        rw [hv2]
    rw [Finset.sum_congr rfl hterm]
    -- cycle the index so the backwards edges line up with forward ones
    rw [show ∑ i in Finset.range (m + 1),
        ((vtx l ((i + m) % (m + 1))).1 - (vtx l i).1) *
          ((vtx l ((i + m) % (m + 1))).2 + (vtx l i).2) =
        ∑ j in Finset.range (m + 1),
        ((vtx l (((j + 1) % (m + 1) + m) % (m + 1))).1 -
            (vtx l ((j + 1) % (m + 1))).1) *
          ((vtx l (((j + 1) % (m + 1) + m) % (m + 1))).2 +
            (vtx l ((j + 1) % (m + 1))).2) from
      (sum_range_cycle (m + 1) _).symm]
    rw [← Finset.sum_neg_distrib]
    apply Finset.sum_congr rfl
    intro j hj
    rw [Finset.mem_range] at hj
    have hpred : ((j + 1) % (m + 1) + m) % (m + 1) = j := by
      by_cases hjm : j = m
      · subst hjm
        rw [Nat.mod_self, Nat.zero_add, Nat.mod_eq_of_lt (by omega)]
      · rw [Nat.mod_eq_of_lt (show j + 1 < m + 1 by omega),
          show j + 1 + m = j + (m + 1) by omega,
          Nat.add_mod_right, Nat.mod_eq_of_lt (by omega)]
    rw [hpred]
    ring

/-- Every constructor output has non-negative signed area. -/
theorem get_area_from_vertices (vs : List Face) :
    0 ≤ (PentagonShape.from_vertices vs).get_area := by
  rw [PentagonShape.from_vertices]
  split <;> rename_i h
  · exact h
  · rw [PentagonShape.get_area, areaOf_reverse]
    push_neg at h
    linarith

/-- **C8.** Every `PentagonShape` keeps the counter-clockwise winding
invariant `get_area() ≥ 0`: it holds immediately after each constructor
(`new`, `new_triangle`, `from_vertices`, which reverse the vertex order
when the signed area is negative), and it is preserved by every transform
(`scale` by a positive factor, `rotate180`, `reflect_y`, `translate`,
`split_edges`), so `contains_point`'s winding check never fires. -/
theorem C8_pentagon_winding :
    (∀ vs : List Face, 0 ≤ (PentagonShape.new vs).get_area) ∧
    (∀ vs : List Face, 0 ≤ (PentagonShape.new_triangle vs).get_area) ∧
    (∀ vs : List Face, 0 ≤ (PentagonShape.from_vertices vs).get_area) ∧
    (∀ (p : PentagonShape) (k : ℚ), 0 < k → 0 ≤ p.get_area →
      0 ≤ (p.scale k).get_area) ∧
    (∀ p : PentagonShape, 0 ≤ p.get_area → 0 ≤ p.rotate180.get_area) ∧
    (∀ p : PentagonShape, 0 ≤ p.get_area → 0 ≤ p.reflect_y.get_area) ∧
    (∀ (p : PentagonShape) (t : Face), 0 ≤ p.get_area →
      0 ≤ (p.translate t).get_area) ∧
    (∀ (p : PentagonShape) (n : Nat), 0 ≤ p.get_area →
      0 ≤ (p.split_edges n).get_area) := by
  refine ⟨?_, ?_, ?_, ?_, ?_, ?_, ?_, ?_⟩
  · intro vs
    rw [PentagonShape.new]
    split <;> rename_i h
    · exact h
    · rw [PentagonShape.get_area, areaOf_reverse]
      push_neg at h
      linarith
  · intro vs
    rw [PentagonShape.new_triangle]
    split <;> rename_i h
    · exact h
    · rw [PentagonShape.get_area, areaOf_reverse]
      push_neg at h
      linarith
  · intro vs
    rw [PentagonShape.from_vertices]
    split <;> rename_i h
    · exact h
    · rw [PentagonShape.get_area, areaOf_reverse]
      push_neg at h
      linarith
  · intro p k hk h
    rw [PentagonShape.get_area, PentagonShape.scale, areaOf_map_scale]
    have : (0:ℚ) ≤ k ^ 2 := sq_nonneg k
    exact mul_nonneg this h
  · intro p h
    rw [PentagonShape.get_area, PentagonShape.rotate180, areaOf_map_neg]
    exact h
  · intro p h
    rw [PentagonShape.get_area] at h
    rw [PentagonShape.get_area, PentagonShape.reflect_y, areaOf_reverse,
      areaOf_map_negy]
    linarith
  · intro p t h
    rw [PentagonShape.get_area, PentagonShape.translate, areaOf_translate]
    exact h
  · intro p n h
    rw [PentagonShape.split_edges]
    split
    · exact h
    · exact get_area_from_vertices _

/-- **C8 (witness).** The scale-preservation conjunct at a concrete
triangle with positive factor 2 (the other conjuncts are instances of the
same theorem). -/
theorem C8_pentagon_winding_witness :
    (0:ℚ) < 2 ∧
    0 ≤ (PentagonShape.mk [((0:ℚ), (0:ℚ)), (0, 1), (1, 0)]).get_area ∧
    0 ≤ ((PentagonShape.mk [((0:ℚ), (0:ℚ)), (0, 1), (1, 0)]).scale 2).get_area := by
  refine ⟨by norm_num, ?_, ?_⟩
  · rw [PentagonShape.get_area]
    norm_num [areaOf, vtx, Finset.sum_range_succ, List.getD_cons_zero,
      List.getD_cons_succ]
  · refine C8_pentagon_winding.2.2.2.1 _ 2 (by norm_num) ?_
    rw [PentagonShape.get_area]
    norm_num [areaOf, vtx, Finset.sum_range_succ, List.getD_cons_zero,
      List.getD_cons_succ]

/-! ### core/hilbert.rs

The triangular-lattice Hilbert curve.  `IJ`/`KJ` vectors (f64 pairs
holding integer or small-denominator rational values) are embedded as
rational pairs; flips are `1` (`NO`) / `-1` (`YES`). -/

/-- Orientation of the Hilbert curve (which corners of the u,v,w triangle
the curve starts and ends at). -/
inductive Orientation where
  | UV | VU | UW | WU | VW | WV
deriving Repr, DecidableEq

/-- Anchor: lattice offset and reflection state of a pentagon. -/
structure Anchor where
  k : Nat
  offset : ℚ × ℚ
  flips : Int × Int
deriving Repr, DecidableEq

/-- `ij_to_kj`. -/
def ij_to_kj (ij : ℚ × ℚ) : ℚ × ℚ := (ij.1 + ij.2, ij.2)

/-- `kj_to_ij`. -/
def kj_to_ij (kj : ℚ × ℚ) : ℚ × ℚ := (kj.1 - kj.2, kj.2)

/-- `quaternary_to_kj` (n is a quaternary digit 0-3; other values panic in
Rust and are unreachable here). -/
def quaternary_to_kj (n : Nat) (flips : Int × Int) : ℚ × ℚ :=
  let pq : (ℚ × ℚ) × (ℚ × ℚ) :=
    if flips = (1, 1) then ((1, 0), (0, 1))
    else if flips = (-1, 1) then ((0, -1), (-1, 0))
    else if flips = (1, -1) then ((0, 1), (1, 0))
    else ((-1, 0), (0, -1))
  if n = 0 then (0, 0)
  else if n = 1 then pq.1
  else if n = 2 then (pq.2.1 + pq.1.1, pq.2.2 + pq.1.2)
  else (pq.2.1 + 2 * pq.1.1, pq.2.2 + 2 * pq.1.2)

/-- `quaternary_to_flips`. -/
def quaternary_to_flips (n : Nat) : Int × Int :=
  if n = 0 then (1, 1)
  else if n = 1 then (1, -1)
  else if n = 2 then (1, 1)
  else (-1, 1)

/-- `FLIP_SHIFT = (-1, 1)`. -/
def FLIP_SHIFT : ℚ × ℚ := (-1, 1)

/-- `PATTERN`. -/
def PATTERN : List Nat := [0, 1, 3, 4, 5, 6, 7, 2]

/-- `PATTERN_FLIPPED`. -/
def PATTERN_FLIPPED : List Nat := [0, 1, 2, 7, 3, 4, 5, 6]

/-- `reverse_pattern`: `result[val] = i` for each `(i, val)`. -/
def reverse_pattern (p : List Nat) : List Nat :=
  (List.range p.length).foldl (fun res i => res.set (p.getD i 0) i)
    (List.replicate p.length 0)

def PATTERN_REVERSED : List Nat := reverse_pattern PATTERN

def PATTERN_FLIPPED_REVERSED : List Nat := reverse_pattern PATTERN_FLIPPED

/-- `shift_digits`: conditionally reorders the digit pair at positions
`i, i-1` of the (LSB-first) digit vector according to `pattern`. -/
def shift_digits (digits : List Nat) (i : Nat) (flips : Int × Int)
    (invert_j : Bool) (pattern : List Nat) : List Nat :=
  if i = 0 then digits
  else
    let parent_k := digits.getD i 0
    let child_k := digits.getD (i - 1) 0
    let f := flips.1 + flips.2
    let sel : Bool × Bool :=
      if invert_j != decide (f = 0) then
        (decide (parent_k = 1 ∨ parent_k = 2), decide (parent_k = 1))
      else
        (decide (parent_k < 2), decide (parent_k = 0))
    if ¬ sel.1 then digits
    else
      let src := if sel.2 then child_k else child_k + 4
      let dst := pattern.getD src 0
      (digits.set (i - 1) (dst % 4)).set i
        ((parent_k + 4 + dst / 4 - src / 4) % 4)

/-- The digit-vector construction of `s_to_anchor_internal`:
`while input > 0 || digits.len() < resolution { push(input % 4); ... }`,
LSB first. -/
def buildDigits (input res : Nat) : List Nat :=
  if 0 < input ∨ 0 < res then (input % 4) :: buildDigits (input / 4) (res - 1)
  else []
termination_by input + res
decreasing_by
  simp_wf
  omega

/-- First loop of `s_to_anchor_internal`: shift the digits from the most
significant position down, accumulating flips. -/
def shiftLoop (invert_j : Bool) (pattern : List Nat) :
    List Nat → Int × Int → Nat → List Nat
  | digits, _, 0 => digits
  | digits, flips, i + 1 =>
    let d := shift_digits digits i flips invert_j pattern
    let nf := quaternary_to_flips (d.getD i 0)
    shiftLoop invert_j pattern d (flips.1 * nf.1, flips.2 * nf.2) i

/-- Second loop of `s_to_anchor_internal`: accumulate the KJ offset from
the most significant digit down. -/
def offsetLoop (digits : List Nat) :
    Nat → ℚ × ℚ → Int × Int → (ℚ × ℚ) × (Int × Int)
  | 0, offset, flips => (offset, flips)
  | i + 1, offset, flips =>
    let child := quaternary_to_kj (digits.getD i 0) flips
    let offset3 := (offset.1 * 2 + child.1, offset.2 * 2 + child.2)
    let nf := quaternary_to_flips (digits.getD i 0)
    offsetLoop digits i offset3 (flips.1 * nf.1, flips.2 * nf.2)

/-- `s_to_anchor_internal`. -/
def s_to_anchor_internal (s : Nat) (resolution : Nat) (invert_j flip_ij : Bool) :
    Anchor :=
  let digits := buildDigits s resolution
  let pattern := if flip_ij then PATTERN_FLIPPED else PATTERN
  let digits2 := shiftLoop invert_j pattern digits (1, 1) digits.length
  let of := offsetLoop digits2 digits2.length (0, 0) (1, 1)
  { k := digits2.getD 0 0, offset := kj_to_ij of.1, flips := of.2 }

/-- `s_to_anchor`. -/
def s_to_anchor (s : Nat) (resolution : Nat) (orientation : Orientation) :
    Anchor :=
  let reverse := orientation = .VU ∨ orientation = .WU ∨ orientation = .VW
  let invert_j := orientation = .WV ∨ orientation = .VW
  let flip_ij := orientation = .WU ∨ orientation = .UW
  let adjusted_input := if reverse then 2 ^ (2 * resolution) - s - 1 else s
  let anchor :=
    s_to_anchor_internal adjusted_input resolution (decide invert_j)
      (decide flip_ij)
  let anchor :=
    if flip_ij then
      let off0 : ℚ × ℚ := (anchor.offset.2, anchor.offset.1)
      let off1 : ℚ × ℚ :=
        if anchor.flips.1 = -1 then
          (off0.1 + FLIP_SHIFT.1, off0.2 + FLIP_SHIFT.2)
        else off0
      let off2 : ℚ × ℚ :=
        if anchor.flips.2 = -1 then
          (off1.1 - FLIP_SHIFT.1, off1.2 - FLIP_SHIFT.2)
        else off1
      { anchor with offset := off2 }
    else anchor
  if invert_j then
    { anchor with
      offset := (anchor.offset.1,
        (2 ^ resolution : ℚ) - (anchor.offset.1 + anchor.offset.2)),
      flips := (-anchor.flips.1, anchor.flips.2) }
  else anchor

/-- `ij_to_quaternary` (uses the ij basis). -/
def ij_to_quaternary (ij : ℚ × ℚ) (flips : Int × Int) : Nat :=
  let u := ij.1
  let v := ij.2
  let a := if flips.1 = -1 then -(u + v) else u + v
  let b := if flips.2 = -1 then -u else u
  let c := if flips.1 = -1 then -v else v
  if flips.1 + flips.2 = 0 then
    if c < 1 then 0
    else if 1 < b then 3
    else if 1 < a then 2
    else 1
  else
    if a < 1 then 0
    else if 1 < b then 3
    else if 1 < c then 2
    else 1

/-- Digit-extraction loop of `ij_to_s_internal` (most significant digit
first, scanning scaled relative offsets). -/
def extractLoop (input : ℚ × ℚ) :
    Nat → List Nat → ℚ × ℚ → Int × Int → List Nat × (Int × Int)
  | 0, digits, _, flips => (digits, flips)
  | i + 1, digits, pivot, flips =>
    let relative : ℚ × ℚ := (input.1 - pivot.1, input.2 - pivot.2)
    let scale : ℚ := 1 / ((2 ^ i : Nat) : ℚ)
    let scaled : ℚ × ℚ := (relative.1 * scale, relative.2 * scale)
    let digit := ij_to_quaternary scaled flips
    let digits2 := digits.set i digit
    let child := kj_to_ij (quaternary_to_kj digit flips)
    let pivot2 : ℚ × ℚ := (pivot.1 + child.1 * ((2 ^ i : Nat) : ℚ),
      pivot.2 + child.2 * ((2 ^ i : Nat) : ℚ))
    let nf := quaternary_to_flips digit
    extractLoop input i digits2 pivot2 (flips.1 * nf.1, flips.2 * nf.2)

/-- Second loop of `ij_to_s_internal`: reapply the reverse pattern shift
from the least significant digit up (the flips keep accumulating from the
state left by the extraction loop). -/
def unshiftLoop (invert_j : Bool) (pattern : List Nat) :
    List Nat → Int × Int → Nat → Nat → List Nat
  | digits, _, _, 0 => digits
  | digits, flips, i, fuel + 1 =>
    let nf := quaternary_to_flips (digits.getD i 0)
    let flips2 := (flips.1 * nf.1, flips.2 * nf.2)
    let digits2 := shift_digits digits i flips2 invert_j pattern
    unshiftLoop invert_j pattern digits2 flips2 (i + 1) fuel

/-- `Σ digits[i] * 4^i` — the final output accumulation of
`ij_to_s_internal`. -/
def digitsToNat (digits : List Nat) : Nat :=
  digits.foldr (fun d acc => d + 4 * acc) 0

/-- `ij_to_s_internal`. -/
def ij_to_s_internal (input : ℚ × ℚ) (invert_j flip_ij : Bool)
    (resolution : Nat) : Nat :=
  let el := extractLoop input resolution (List.replicate resolution 0)
    (0, 0) (1, 1)
  let pattern := if flip_ij then PATTERN_FLIPPED_REVERSED else PATTERN_REVERSED
  let digits2 := unshiftLoop invert_j pattern el.1 el.2 0 el.1.length
  digitsToNat digits2

/-- `ij_to_s`. -/
def ij_to_s (input : ℚ × ℚ) (resolution : Nat) (orientation : Orientation) :
    Nat :=
  let reverse := orientation = .VU ∨ orientation = .WU ∨ orientation = .VW
  let invert_j := orientation = .WV ∨ orientation = .VW
  let flip_ij := orientation = .WU ∨ orientation = .UW
  let ij0 := if flip_ij then (input.2, input.1) else input
  let ij :=
    if invert_j then (ij0.1, (2 ^ resolution : ℚ) - (ij0.1 + ij0.2))
    else ij0
  let s := ij_to_s_internal ij (decide invert_j) (decide flip_ij) resolution
  if reverse then 2 ^ (2 * resolution) - s - 1 else s

/-- The nudge of the round-trip property: moves an anchor offset off the
edge of its cell, into the interior, according to the anchor's flips. -/
def nudge (flips : Int × Int) : ℚ × ℚ :=
  if flips = (1, 1) then (1/10, 1/10)
  else if flips = (-1, 1) then (1/10, -2/10)
  else if flips = (1, -1) then (-1/10, 2/10)
  else (-1/10, -1/10)

/-! #### Carry-form reformulation of the digit-shift passes

`shift_digits` touches the adjacent positions `i` and `i-1`, so each of
the two shift loops is a scan carrying one pending digit.  The loops are
proved equal to these structural scans below. -/

/-- Componentwise product of flip pairs. -/
def fmul (a b : Int × Int) : Int × Int := (a.1 * b.1, a.2 * b.2)

/-- A flip pair is valid when both components are `±1`. -/
def validFlips (F : Int × Int) : Prop :=
  (F.1 = 1 ∨ F.1 = -1) ∧ (F.2 = 1 ∨ F.2 = -1)

instance (F : Int × Int) : Decidable (validFlips F) := by
  unfold validFlips; infer_instance

/-- Componentwise product of the per-digit flips of a digit list. -/
def flipsTotal (l : List Nat) : Int × Int :=
  l.foldr (fun d a => fmul (quaternary_to_flips d) a) (1, 1)

/-- One parent/child step of `shift_digits` in carry form: from the parent
digit, the child digit and the flips state, the new (parent, child) pair. -/
def shiftStep (parent child : Nat) (flips : Int × Int) (invert_j : Bool)
    (pattern : List Nat) : Nat × Nat :=
  let f := flips.1 + flips.2
  let sel : Bool × Bool :=
    if invert_j != decide (f = 0) then
      (decide (parent = 1 ∨ parent = 2), decide (parent = 1))
    else
      (decide (parent < 2), decide (parent = 0))
  if ¬ sel.1 then (parent, child)
  else
    let src := if sel.2 then child else child + 4
    let dst := pattern.getD src 0
    ((parent + 4 + dst / 4 - src / 4) % 4, dst % 4)

/-- The first loop of `s_to_anchor_internal` as a top-down scan over the
MSB-first lower digits, carrying the pending parent digit. -/
def shiftPass (invert_j : Bool) (pattern : List Nat) :
    Nat → List Nat → Int × Int → List Nat
  | c, [], _ => [c]
  | c, d :: rest, flips =>
    let pr := shiftStep c d flips invert_j pattern
    pr.1 :: shiftPass invert_j pattern pr.2 rest
      (fmul flips (quaternary_to_flips pr.1))

/-- The body of the un-shift loop of `ij_to_s_internal` as a bottom-up
scan: LSB-first digits above the carry, pending child digit `y`, flips.
Returns the emitted digits, the final carry and the final flips. -/
def goScan (invert_j : Bool) (pattern : List Nat) :
    List Nat → Nat → Int × Int → List Nat × Nat × (Int × Int)
  | [], y, flips => ([], y, flips)
  | e :: rest, y, flips =>
    let f2 := fmul flips (quaternary_to_flips e)
    let pr := shiftStep e y f2 invert_j pattern
    let o := goScan invert_j pattern rest pr.1 f2
    (pr.2 :: o.1, o.2)

/-- The un-shift loop of `ij_to_s_internal` in scan form (the step at
index 0 only accumulates flips; the shift there is a no-op). -/
def pass3Scan (invert_j : Bool) (pattern : List Nat) :
    List Nat → Int × Int → List Nat × Nat × (Int × Int)
  | [], F => ([], 0, F)
  | e :: rest, F =>
    goScan invert_j pattern rest e (fmul F (quaternary_to_flips e))

theorem fmul_one_right (a : Int × Int) : fmul a (1, 1) = a := by
  simp [fmul]

theorem fmul_assoc (a b c : Int × Int) :
    fmul (fmul a b) c = fmul a (fmul b c) := by
  simp [fmul, mul_assoc]

theorem fmul_comm (a b : Int × Int) : fmul a b = fmul b a := by
  simp [fmul, mul_comm]

theorem quaternary_to_flips_valid (n : Nat) :
    validFlips (quaternary_to_flips n) := by
  unfold quaternary_to_flips validFlips
  split_ifs <;> simp

theorem quaternary_to_flips_sq (n : Nat) :
    fmul (quaternary_to_flips n) (quaternary_to_flips n) = (1, 1) := by
  unfold quaternary_to_flips
  split_ifs <;> rfl

theorem validFlips_fmul {a b : Int × Int} (ha : validFlips a)
    (hb : validFlips b) : validFlips (fmul a b) := by
  obtain ⟨a1, a2⟩ := a
  obtain ⟨b1, b2⟩ := b
  simp only [validFlips, fmul] at *
  rcases ha with ⟨h1 | h1, h2 | h2⟩ <;> rcases hb with ⟨g1 | g1, g2 | g2⟩ <;>
    subst h1 <;> subst h2 <;> subst g1 <;> subst g2 <;> norm_num

theorem fmul_sq_cancel (F : Int × Int) (n : Nat) :
    fmul (fmul F (quaternary_to_flips n)) (quaternary_to_flips n) = F := by
  rw [fmul_assoc, quaternary_to_flips_sq, fmul_one_right]

theorem flipsTotal_nil : flipsTotal [] = (1, 1) := rfl

theorem flipsTotal_cons (d : Nat) (l : List Nat) :
    flipsTotal (d :: l) = fmul (quaternary_to_flips d) (flipsTotal l) := rfl

theorem flipsTotal_valid (l : List Nat) : validFlips (flipsTotal l) := by
  induction l with
  | nil => exact ⟨Or.inl rfl, Or.inl rfl⟩
  | cons d t ih =>
    rw [flipsTotal_cons]
    exact validFlips_fmul (quaternary_to_flips_valid d) ih

theorem shiftStep_lt (c d : Nat) (F : Int × Int) (inv : Bool) (pat : List Nat)
    (hc : c < 4) (hd : d < 4) :
    (shiftStep c d F inv pat).1 < 4 ∧ (shiftStep c d F inv pat).2 < 4 := by
  simp only [shiftStep]
  split_ifs <;>
    first
      | exact ⟨hc, hd⟩
      | exact ⟨Nat.mod_lt _ (by norm_num), Nat.mod_lt _ (by norm_num)⟩

theorem shiftPass_ne_nil (inv : Bool) (pat : List Nat) (c : Nat)
    (ms : List Nat) (F : Int × Int) : shiftPass inv pat c ms F ≠ [] := by
  cases ms <;> simp [shiftPass]

theorem shiftPass_length (inv : Bool) (pat : List Nat) :
    ∀ (ms : List Nat) (c : Nat) (F : Int × Int),
      (shiftPass inv pat c ms F).length = ms.length + 1 := by
  intro ms
  induction ms with
  | nil => intro c F; rfl
  | cons d rest ih => intro c F; simp [shiftPass, ih]

theorem shiftPass_all_lt (inv : Bool) (pat : List Nat) :
    ∀ (ms : List Nat) (c : Nat) (F : Int × Int), c < 4 → (∀ x ∈ ms, x < 4) →
      ∀ x ∈ shiftPass inv pat c ms F, x < 4 := by
  intro ms
  induction ms with
  | nil =>
    intro c F hc _ x hx
    simp only [shiftPass, List.mem_singleton] at hx
    exact hx ▸ hc
  | cons d rest ih =>
    intro c F hc hms x hx
    have hd : d < 4 := hms d (List.mem_cons_self d rest)
    have hstep := shiftStep_lt c d F inv pat hc hd
    simp only [shiftPass, List.mem_cons] at hx
    rcases hx with rfl | hx
    · exact hstep.1
    · exact ih _ _ hstep.2 (fun y hy => hms y (List.mem_cons_of_mem d hy)) x hx

theorem goScan_append (inv : Bool) (pat : List Nat) :
    ∀ (xs : List Nat) (e y : Nat) (G : Int × Int),
      goScan inv pat (xs ++ [e]) y G =
        ((goScan inv pat xs y G).1 ++
           [(shiftStep e (goScan inv pat xs y G).2.1
              (fmul (goScan inv pat xs y G).2.2 (quaternary_to_flips e)) inv pat).2],
         (shiftStep e (goScan inv pat xs y G).2.1
            (fmul (goScan inv pat xs y G).2.2 (quaternary_to_flips e)) inv pat).1,
         fmul (goScan inv pat xs y G).2.2 (quaternary_to_flips e)) := by
  intro xs
  induction xs with
  | nil => intro e y G; simp [goScan]
  | cons x rest ih =>
    intro e y G
    simp only [List.cons_append, goScan, List.append_eq]
    rw [ih]

theorem pass3Scan_append (inv : Bool) (pat : List Nat) (xs : List Nat)
    (hxs : xs ≠ []) (e : Nat) (F : Int × Int) :
    pass3Scan inv pat (xs ++ [e]) F =
      ((pass3Scan inv pat xs F).1 ++
         [(shiftStep e (pass3Scan inv pat xs F).2.1
            (fmul (pass3Scan inv pat xs F).2.2 (quaternary_to_flips e)) inv pat).2],
       (shiftStep e (pass3Scan inv pat xs F).2.1
          (fmul (pass3Scan inv pat xs F).2.2 (quaternary_to_flips e)) inv pat).1,
       fmul (pass3Scan inv pat xs F).2.2 (quaternary_to_flips e)) := by
  obtain ⟨x, rest, rfl⟩ : ∃ x rest, xs = x :: rest := by
    cases xs with
    | nil => exact absurd rfl hxs
    | cons a b => exact ⟨a, b, rfl⟩
  simp only [List.cons_append, pass3Scan]
  rw [goScan_append]

/-- The second (reverse-pattern) shift pass undoes the first: running the
bottom-up scan with the accumulated total flips on the output of the
top-down pass returns the original digits, the original carry, and the
incoming flips state. -/
theorem pass3Scan_shiftPass (inv : Bool) (P R : List Nat)
    (hstep : ∀ c d F, c < 4 → d < 4 → validFlips F →
      shiftStep (shiftStep c d F inv P).1 (shiftStep c d F inv P).2 F inv R
        = (c, d)) :
    ∀ (ms : List Nat) (c : Nat) (F : Int × Int),
      (∀ x ∈ ms, x < 4) → c < 4 → validFlips F →
      pass3Scan inv R (shiftPass inv P c ms F).reverse
          (fmul F (flipsTotal (shiftPass inv P c ms F))) =
        (ms.reverse, c, F) := by
  intro ms
  induction ms with
  | nil =>
    intro c F _ hc hF
    show pass3Scan inv R [c].reverse (fmul F (flipsTotal [c])) = ([], c, F)
    have h1 : flipsTotal [c] = fmul (quaternary_to_flips c) (1, 1) := rfl
    rw [h1, fmul_one_right]
    show goScan inv R [] c
        (fmul (fmul F (quaternary_to_flips c)) (quaternary_to_flips c)) =
      ([], c, F)
    rw [fmul_sq_cancel]
    rfl
  | cons d rest ih =>
    intro c F hms hc hF
    have hd : d < 4 := hms d (List.mem_cons_self d rest)
    have hrest : ∀ x ∈ rest, x < 4 :=
      fun y hy => hms y (List.mem_cons_of_mem d hy)
    have hlt := shiftStep_lt c d F inv P hc hd
    set pr := shiftStep c d F inv P with hpr
    set F2 := fmul F (quaternary_to_flips pr.1) with hF2
    have hF2v : validFlips F2 :=
      validFlips_fmul hF (quaternary_to_flips_valid pr.1)
    have hunfold : shiftPass inv P c (d :: rest) F =
        pr.1 :: shiftPass inv P pr.2 rest F2 := rfl
    set es : List Nat := shiftPass inv P pr.2 rest F2 with hes
    rw [hunfold]
    have hne : es.reverse ≠ [] := by
      simp only [ne_eq, List.reverse_eq_nil_iff]
      exact shiftPass_ne_nil inv P pr.2 rest F2
    have hG0 : fmul F (flipsTotal (pr.1 :: es)) = fmul F2 (flipsTotal es) := by
      rw [flipsTotal_cons, hF2, fmul_assoc]
    rw [List.reverse_cons, hG0, pass3Scan_append inv R es.reverse hne pr.1]
    rw [ih pr.2 F2 hrest hlt.2 hF2v]
    have hcancel : fmul F2 (quaternary_to_flips pr.1) = F := by
      rw [hF2, fmul_sq_cancel]
    simp only [hcancel]
    rw [hstep c d F hc hd hF]
    simp [List.reverse_cons]

/-- `PATTERN_REVERSED` inverts every `PATTERN` shift step. -/
theorem shiftStep_inverts_main (inv : Bool) (c d : Nat) (F : Int × Int)
    (hc : c < 4) (hd : d < 4) (hF : validFlips F) :
    shiftStep (shiftStep c d F inv PATTERN).1 (shiftStep c d F inv PATTERN).2
      F inv PATTERN_REVERSED = (c, d) := by
  obtain ⟨f1, f2⟩ := F
  simp only [validFlips] at hF
  cases inv <;> rcases hF with ⟨h1 | h1, h2 | h2⟩ <;> subst h1 <;> subst h2 <;>
    interval_cases c <;> interval_cases d <;> decide

/-- `PATTERN_FLIPPED_REVERSED` inverts every `PATTERN_FLIPPED` shift step. -/
theorem shiftStep_inverts_flipped (inv : Bool) (c d : Nat) (F : Int × Int)
    (hc : c < 4) (hd : d < 4) (hF : validFlips F) :
    shiftStep (shiftStep c d F inv PATTERN_FLIPPED).1
      (shiftStep c d F inv PATTERN_FLIPPED).2
      F inv PATTERN_FLIPPED_REVERSED = (c, d) := by
  obtain ⟨f1, f2⟩ := F
  simp only [validFlips] at hF
  cases inv <;> rcases hF with ⟨h1 | h1, h2 | h2⟩ <;> subst h1 <;> subst h2 <;>
    interval_cases c <;> interval_cases d <;> decide

theorem set_append_len {α : Type} (low : List α) (a : α) (rest : List α)
    (x : α) : (low ++ a :: rest).set low.length x = low ++ x :: rest := by
  induction low with
  | nil => rfl
  | cons h t ih =>
    show h :: ((t ++ a :: rest).set t.length x) = h :: (t ++ x :: rest)
    rw [ih]

theorem set_set_append {α : Type} (low : List α) (d c : α) (high : List α)
    (x y : α) :
    ((low ++ d :: c :: high).set low.length x).set (low.length + 1) y =
      low ++ x :: y :: high := by
  rw [set_append_len low d (c :: high) x]
  have h1 : low ++ x :: c :: high = (low ++ [x]) ++ c :: high := by simp
  have h2 : low.length + 1 = (low ++ [x]).length := by simp
  rw [h1, h2, set_append_len (low ++ [x]) c high y]
  simp

/-- `shift_digits` at index `|low| + 1` on `low ++ [d, c] ++ high` is the
carry-form step applied to the pair `(c, d)`. -/
theorem shift_digits_shape (low : List Nat) (d c : Nat) (high : List Nat)
    (flips : Int × Int) (inv : Bool) (pat : List Nat) :
    shift_digits (low ++ d :: c :: high) (low.length + 1) flips inv pat =
      low ++ (shiftStep c d flips inv pat).2 ::
        (shiftStep c d flips inv pat).1 :: high := by
  have hg1 : (low ++ d :: c :: high).getD (low.length + 1) 0 = c := by
    rw [List.getD_append_right _ _ _ _ (by omega)]
    simp [show low.length + 1 - low.length = 1 by omega]
  have hg0 : (low ++ d :: c :: high).getD low.length 0 = d := by
    rw [List.getD_append_right _ _ _ _ (le_refl _)]
    simp
  simp only [shift_digits, shiftStep,
    show low.length + 1 - 1 = low.length from by omega, hg1, hg0,
    if_neg (show ¬ low.length + 1 = 0 by omega)]
  split_ifs <;> first
    | rfl
    | exact set_set_append low d c high _ _

theorem shiftLoop_eq (inv : Bool) (pat : List Nat) :
    ∀ (low : List Nat) (c : Nat) (fin : List Nat) (F : Int × Int),
      shiftLoop inv pat (low ++ c :: fin) F (low.length + 1) =
        (shiftPass inv pat c low.reverse F).reverse ++ fin := by
  intro low
  induction low using List.reverseRecOn with
  | nil =>
    intro c fin F
    simp [shiftLoop, shift_digits, shiftPass]
  | append_singleton low' d ih =>
    intro c fin F
    have hassoc : (low' ++ [d]) ++ c :: fin = low' ++ d :: c :: fin := by simp
    have hlen : (low' ++ [d]).length + 1 = (low'.length + 1) + 1 := by simp
    rw [hassoc, hlen]
    show shiftLoop inv pat
        (shift_digits (low' ++ d :: c :: fin) (low'.length + 1) F inv pat)
        (F.1 * (quaternary_to_flips
          ((shift_digits (low' ++ d :: c :: fin) (low'.length + 1) F inv pat).getD
            (low'.length + 1) 0)).1,
         F.2 * (quaternary_to_flips
          ((shift_digits (low' ++ d :: c :: fin) (low'.length + 1) F inv pat).getD
            (low'.length + 1) 0)).2)
        (low'.length + 1) = _
    rw [shift_digits_shape low' d c fin F inv pat]
    have hgd : (low' ++ (shiftStep c d F inv pat).2 ::
          (shiftStep c d F inv pat).1 :: fin).getD (low'.length + 1) 0 =
        (shiftStep c d F inv pat).1 := by
      rw [List.getD_append_right _ _ _ _ (by omega)]
      simp [show low'.length + 1 - low'.length = 1 by omega]
    rw [hgd]
    have hstep := ih (shiftStep c d F inv pat).2 ((shiftStep c d F inv pat).1 :: fin)
      (fmul F (quaternary_to_flips (shiftStep c d F inv pat).1))
    have hfm : fmul F (quaternary_to_flips (shiftStep c d F inv pat).1) =
        (F.1 * (quaternary_to_flips (shiftStep c d F inv pat).1).1,
         F.2 * (quaternary_to_flips (shiftStep c d F inv pat).1).2) := rfl
    rw [hfm] at hstep
    rw [hstep]
    have hrev : (low' ++ [d]).reverse = d :: low'.reverse := by simp
    rw [hrev]
    show (shiftPass inv pat (shiftStep c d F inv pat).2 low'.reverse
        (F.1 * (quaternary_to_flips (shiftStep c d F inv pat).1).1,
         F.2 * (quaternary_to_flips (shiftStep c d F inv pat).1).2)).reverse ++
        (shiftStep c d F inv pat).1 :: fin =
      ((shiftStep c d F inv pat).1 :: shiftPass inv pat
        (shiftStep c d F inv pat).2 low'.reverse
        (fmul F (quaternary_to_flips (shiftStep c d F inv pat).1))).reverse ++ fin
    rw [List.reverse_cons, hfm]
    simp

theorem unshiftLoop_eq (inv : Bool) (pat : List Nat) :
    ∀ (pending out : List Nat) (y : Nat) (G : Int × Int),
      unshiftLoop inv pat (out ++ y :: pending) G (out.length + 1)
          pending.length =
        out ++ (goScan inv pat pending y G).1 ++
          [(goScan inv pat pending y G).2.1] := by
  intro pending
  induction pending with
  | nil => intro out y G; simp [unshiftLoop, goScan]
  | cons e rest ih =>
    intro out y G
    have hgd : (out ++ y :: e :: rest).getD (out.length + 1) 0 = e := by
      rw [List.getD_append_right _ _ _ _ (by omega)]
      simp [show out.length + 1 - out.length = 1 by omega]
    show unshiftLoop inv pat
        (shift_digits (out ++ y :: e :: rest) (out.length + 1)
          (G.1 * (quaternary_to_flips ((out ++ y :: e :: rest).getD
            (out.length + 1) 0)).1,
           G.2 * (quaternary_to_flips ((out ++ y :: e :: rest).getD
            (out.length + 1) 0)).2) inv pat)
        (G.1 * (quaternary_to_flips ((out ++ y :: e :: rest).getD
          (out.length + 1) 0)).1,
         G.2 * (quaternary_to_flips ((out ++ y :: e :: rest).getD
          (out.length + 1) 0)).2)
        (out.length + 1 + 1) rest.length = _
    rw [hgd]
    have hfm : (G.1 * (quaternary_to_flips e).1, G.2 * (quaternary_to_flips e).2) =
        fmul G (quaternary_to_flips e) := rfl
    rw [hfm, shift_digits_shape out y e rest (fmul G (quaternary_to_flips e)) inv pat]
    set f2 := fmul G (quaternary_to_flips e) with hf2
    set pr := shiftStep e y f2 inv pat with hprdef
    have hout : out ++ pr.2 :: pr.1 :: rest = (out ++ [pr.2]) ++ pr.1 :: rest := by
      simp
    have hlen2 : out.length + 1 + 1 = (out ++ [pr.2]).length + 1 := by simp
    rw [hout, hlen2, ih (out ++ [pr.2]) pr.1 f2]
    show _ = out ++ (pr.2 :: (goScan inv pat rest pr.1 f2).1,
      (goScan inv pat rest pr.1 f2).2).1 ++
        [(pr.2 :: (goScan inv pat rest pr.1 f2).1,
          (goScan inv pat rest pr.1 f2).2).2.1]
    simp

theorem fmul_one_left (a : Int × Int) : fmul (1, 1) a = a := by
  simp [fmul]

theorem flipsTotal_append (l1 l2 : List Nat) :
    flipsTotal (l1 ++ l2) = fmul (flipsTotal l1) (flipsTotal l2) := by
  induction l1 with
  | nil => rw [List.nil_append, flipsTotal_nil, fmul_one_left]
  | cons d t ih =>
    rw [List.cons_append, flipsTotal_cons, ih, flipsTotal_cons, fmul_assoc]

/-- The offset accumulated by the second loop of `s_to_anchor_internal`,
as a structural recursion over the MSB-first digit list (KJ basis). -/
def hilbertOffsetM : List Nat → Int × Int → ℚ × ℚ
  | [], _ => (0, 0)
  | d :: rest, F =>
    ((quaternary_to_kj d F).1 * 2 ^ rest.length +
       (hilbertOffsetM rest (fmul F (quaternary_to_flips d))).1,
     (quaternary_to_kj d F).2 * 2 ^ rest.length +
       (hilbertOffsetM rest (fmul F (quaternary_to_flips d))).2)

theorem offsetLoop_eq (digits : List Nat) :
    ∀ (i : Nat), i ≤ digits.length → ∀ (off : ℚ × ℚ) (F : Int × Int),
      offsetLoop digits i off F =
        ((2 ^ i * off.1 + (hilbertOffsetM (digits.take i).reverse F).1,
          2 ^ i * off.2 + (hilbertOffsetM (digits.take i).reverse F).2),
         fmul F (flipsTotal (digits.take i))) := by
  intro i
  induction i with
  | zero =>
    intro _ off F
    simp only [offsetLoop, hilbertOffsetM, flipsTotal_nil, List.take_zero,
      List.reverse_nil, pow_zero, one_mul, fmul_one_right]
    simp
  | succ i ih =>
    intro hle off F
    have hi : i < digits.length := by omega
    have htake : digits.take (i + 1) = digits.take i ++ [digits[i]] := by
      rw [List.take_succ]
      simp [List.getElem?_eq_getElem hi]
    have hrev : (digits.take (i + 1)).reverse = digits[i] :: (digits.take i).reverse := by
      rw [htake]
      simp
    have hgd : digits.getD i 0 = digits[i] := by
      simp [List.getD_eq_getElem?_getD, List.getElem?_eq_getElem hi]
    have hlenr : ((digits.take i).reverse).length = i := by
      simp [Nat.min_eq_left (le_of_lt hi)]
    show offsetLoop digits i
        (off.1 * 2 + (quaternary_to_kj (digits.getD i 0) F).1,
         off.2 * 2 + (quaternary_to_kj (digits.getD i 0) F).2)
        (F.1 * (quaternary_to_flips (digits.getD i 0)).1,
         F.2 * (quaternary_to_flips (digits.getD i 0)).2) = _
    have hfm : (F.1 * (quaternary_to_flips (digits.getD i 0)).1,
        F.2 * (quaternary_to_flips (digits.getD i 0)).2) =
        fmul F (quaternary_to_flips (digits.getD i 0)) := rfl
    rw [hfm, ih (by omega)]
    rw [hgd, hrev]
    have hH : hilbertOffsetM (digits[i] :: (digits.take i).reverse) F =
        ((quaternary_to_kj digits[i] F).1 * 2 ^ i +
           (hilbertOffsetM (digits.take i).reverse
             (fmul F (quaternary_to_flips digits[i]))).1,
         (quaternary_to_kj digits[i] F).2 * 2 ^ i +
           (hilbertOffsetM (digits.take i).reverse
             (fmul F (quaternary_to_flips digits[i]))).2) := by
      rw [hilbertOffsetM, hlenr]
    rw [hH, htake, flipsTotal_append]
    have hflip : fmul F (fmul (flipsTotal (digits.take i)) (flipsTotal [digits[i]])) =
        fmul (fmul F (quaternary_to_flips digits[i])) (flipsTotal (digits.take i)) := by
      rw [flipsTotal_cons, flipsTotal_nil, fmul_one_right, fmul_assoc,
        fmul_comm (flipsTotal (digits.take i))]
    rw [hflip]
    refine congrArg (fun x => (x, _)) ?_
    refine Prod.ext ?_ ?_ <;> simp <;> ring

/-- The open triangular region (IJ basis) that the nudged anchor point of
a digit list lies in, by ambient flip state, at scale `2^m`. -/
def inRegion (F : Int × Int) (m : Nat) (p : ℚ × ℚ) : Prop :=
  if F = (1, 1) then 0 < p.1 ∧ 0 < p.2 ∧ p.1 + p.2 < 2 ^ m
  else if F = (1, -1) then p.1 < 0 ∧ p.2 < 2 ^ m ∧ 0 < p.1 + p.2
  else if F = (-1, 1) then 0 < p.1 ∧ -(2 ^ m : ℚ) < p.2 ∧ p.1 + p.2 < 0
  else p.1 < 0 ∧ p.2 < 0 ∧ -(2 ^ m : ℚ) < p.1 + p.2

/-- Region invariant: the anchor offset of any digit list, nudged into
the interior by any interior-nudge function, lies in the open region of
its ambient flip state. -/
theorem hilbert_offset_inRegion (ν : Int × Int → ℚ × ℚ)
    (hν : ∀ F, validFlips F → inRegion F 0 (ν F)) :
    ∀ (e : List Nat) (F : Int × Int), (∀ x ∈ e, x < 4) → validFlips F →
      inRegion F e.length
        ((kj_to_ij (hilbertOffsetM e F)).1 + (ν (fmul F (flipsTotal e))).1,
         (kj_to_ij (hilbertOffsetM e F)).2 + (ν (fmul F (flipsTotal e))).2) := by
  intro e
  induction e with
  | nil =>
    intro F _ hF
    have h1 : fmul F (flipsTotal []) = F := fmul_one_right F
    rw [h1]
    simpa [hilbertOffsetM, kj_to_ij] using hν F hF
  | cons d rest ih =>
    intro F h4 hF
    have hd : d < 4 := h4 d (List.mem_cons_self d rest)
    have hrest : ∀ x ∈ rest, x < 4 := fun y hy => h4 y (List.mem_cons_of_mem d hy)
    have hQ := ih (fmul F (quaternary_to_flips d)) hrest
      (validFlips_fmul hF (quaternary_to_flips_valid d))
    have harg : fmul F (flipsTotal (d :: rest)) =
        fmul (fmul F (quaternary_to_flips d)) (flipsTotal rest) := by
      rw [flipsTotal_cons, ← fmul_assoc]
    have h2 : (0:ℚ) < 2 ^ rest.length := by positivity
    have hs : (2:ℚ) ^ (rest.length + 1) = 2 ^ rest.length * 2 := pow_succ 2 _
    simp only [List.length_cons]
    rw [harg]
    obtain ⟨f1, f2⟩ := F
    simp only [validFlips] at hF
    rcases hF with ⟨h1 | h1, h2' | h2'⟩ <;> subst h1 <;> subst h2' <;>
      interval_cases d <;>
      · simp only [hilbertOffsetM]
        norm_num [quaternary_to_flips, fmul, quaternary_to_kj, kj_to_ij,
          inRegion] at hQ ⊢
        exact ⟨by linarith, by linarith, by linarith⟩

theorem inRegion_div {F : Int × Int} {m : Nat} {p : ℚ × ℚ}
    (h : inRegion F m p) : inRegion F 0 (p.1 / 2 ^ m, p.2 / 2 ^ m) := by
  have ht : (0:ℚ) < 2 ^ m := by positivity
  unfold inRegion at h ⊢
  split_ifs at h ⊢ <;> obtain ⟨ha, hb, hc⟩ := h <;> norm_num <;>
    refine ⟨?_, ?_, ?_⟩ <;>
    first
      | linarith
      | exact div_pos (by linarith) ht
      | exact div_neg_of_neg_of_pos (by linarith) ht
      | (rw [div_add_div_same, div_lt_one ht]; linarith)
      | (rw [div_add_div_same]; exact div_pos (by linarith) ht)
      | (rw [div_add_div_same]; exact div_neg_of_neg_of_pos (by linarith) ht)
      | (rw [div_lt_one ht]; linarith)
      | (rw [lt_div_iff₀ ht]; linarith)
      | (rw [div_lt_iff₀ ht]; linarith)
      | (rw [div_add_div_same, lt_div_iff₀ ht]; linarith)

set_option maxHeartbeats 3200000 in
/-- Scale-free digit test: adding a point of the child's open region to a
child corner recovers the digit. -/
theorem ij_to_quaternary_child (F : Int × Int) (hF : validFlips F)
    (d : Nat) (hd : d < 4) (q : ℚ × ℚ)
    (hq : inRegion (fmul F (quaternary_to_flips d)) 0 q) :
    ij_to_quaternary ((kj_to_ij (quaternary_to_kj d F)).1 + q.1,
      (kj_to_ij (quaternary_to_kj d F)).2 + q.2) F = d := by
  obtain ⟨f1, f2⟩ := F
  obtain ⟨q1, q2⟩ := q
  simp only [validFlips] at hF
  rcases hF with ⟨h1 | h1, h2 | h2⟩ <;> subst h1 <;> subst h2 <;>
    interval_cases d <;>
    · norm_num [fmul, quaternary_to_flips, inRegion] at hq
      obtain ⟨hq1, hq2, hq3⟩ := hq
      simp only [quaternary_to_kj, kj_to_ij]
      norm_num
      simp only [ij_to_quaternary]
      split_ifs <;>
        first
          | rfl
          | (exfalso; first | contradiction | linarith | omega)

/-- The digit-extraction loop of `ij_to_s_internal` in structural form:
extract `m` digits (MSB first) from a point, tracking the pivot
implicitly as a relative offset. -/
def extractDigitsM : ℚ × ℚ → Nat → Int × Int → List Nat × (Int × Int)
  | _, 0, F => ([], F)
  | p, m + 1, F =>
    let scale : ℚ := 1 / ((2 ^ m : Nat) : ℚ)
    let digit := ij_to_quaternary (p.1 * scale, p.2 * scale) F
    let c := kj_to_ij (quaternary_to_kj digit F)
    let o := extractDigitsM
      (p.1 - c.1 * ((2 ^ m : Nat) : ℚ), p.2 - c.2 * ((2 ^ m : Nat) : ℚ)) m
      (fmul F (quaternary_to_flips digit))
    (digit :: o.1, o.2)

/-- Extraction inverts offset accumulation: from the nudged anchor point
of a digit list the extraction loop recovers exactly those digits and
ends in the accumulated flips state. -/
theorem extractDigitsM_correct (ν : Int × Int → ℚ × ℚ)
    (hν : ∀ F, validFlips F → inRegion F 0 (ν F)) :
    ∀ (e : List Nat) (F : Int × Int), (∀ x ∈ e, x < 4) → validFlips F →
      extractDigitsM
        ((kj_to_ij (hilbertOffsetM e F)).1 + (ν (fmul F (flipsTotal e))).1,
         (kj_to_ij (hilbertOffsetM e F)).2 + (ν (fmul F (flipsTotal e))).2)
        e.length F = (e, fmul F (flipsTotal e)) := by
  intro e
  induction e with
  | nil =>
    intro F _ _
    rw [show fmul F (flipsTotal []) = F from fmul_one_right F]
    rfl
  | cons d rest ih =>
    intro F h4 hF
    have hd : d < 4 := h4 d (List.mem_cons_self d rest)
    have hrest : ∀ x ∈ rest, x < 4 := fun y hy => h4 y (List.mem_cons_of_mem d hy)
    have hF2 : validFlips (fmul F (quaternary_to_flips d)) :=
      validFlips_fmul hF (quaternary_to_flips_valid d)
    have harg : fmul F (flipsTotal (d :: rest)) =
        fmul (fmul F (quaternary_to_flips d)) (flipsTotal rest) := by
      rw [flipsTotal_cons, ← fmul_assoc]
    rw [harg]
    have ht : (0:ℚ) < 2 ^ rest.length := by positivity
    have htne : (2:ℚ) ^ rest.length ≠ 0 := ne_of_gt ht
    have hcast : ((2 ^ rest.length : Nat) : ℚ) = 2 ^ rest.length := by
      push_cast
      rfl
    have hreg : inRegion (fmul F (quaternary_to_flips d)) rest.length
        ((kj_to_ij (hilbertOffsetM rest (fmul F (quaternary_to_flips d)))).1 +
           (ν (fmul (fmul F (quaternary_to_flips d)) (flipsTotal rest))).1,
         (kj_to_ij (hilbertOffsetM rest (fmul F (quaternary_to_flips d)))).2 +
           (ν (fmul (fmul F (quaternary_to_flips d)) (flipsTotal rest))).2) :=
      hilbert_offset_inRegion ν hν rest (fmul F (quaternary_to_flips d)) hrest hF2
    have hreg0 := inRegion_div hreg
    have hP1 : (kj_to_ij (hilbertOffsetM (d :: rest) F)).1 +
          (ν (fmul (fmul F (quaternary_to_flips d)) (flipsTotal rest))).1 =
        (kj_to_ij (quaternary_to_kj d F)).1 * 2 ^ rest.length +
          ((kj_to_ij (hilbertOffsetM rest (fmul F (quaternary_to_flips d)))).1 +
           (ν (fmul (fmul F (quaternary_to_flips d)) (flipsTotal rest))).1) := by
      simp only [hilbertOffsetM, kj_to_ij]
      ring
    have hP2 : (kj_to_ij (hilbertOffsetM (d :: rest) F)).2 +
          (ν (fmul (fmul F (quaternary_to_flips d)) (flipsTotal rest))).2 =
        (kj_to_ij (quaternary_to_kj d F)).2 * 2 ^ rest.length +
          ((kj_to_ij (hilbertOffsetM rest (fmul F (quaternary_to_flips d)))).2 +
           (ν (fmul (fmul F (quaternary_to_flips d)) (flipsTotal rest))).2) := by
      simp only [hilbertOffsetM, kj_to_ij]
      ring
    rw [List.length_cons, hP1, hP2]
    set Q1 := (kj_to_ij (hilbertOffsetM rest (fmul F (quaternary_to_flips d)))).1 +
      (ν (fmul (fmul F (quaternary_to_flips d)) (flipsTotal rest))).1 with hQ1
    set Q2 := (kj_to_ij (hilbertOffsetM rest (fmul F (quaternary_to_flips d)))).2 +
      (ν (fmul (fmul F (quaternary_to_flips d)) (flipsTotal rest))).2 with hQ2
    have hsc1 : ((kj_to_ij (quaternary_to_kj d F)).1 * 2 ^ rest.length + Q1) *
        (1 / ((2 ^ rest.length : Nat) : ℚ)) =
        (kj_to_ij (quaternary_to_kj d F)).1 + Q1 / 2 ^ rest.length := by
      rw [hcast]
      field_simp
    have hsc2 : ((kj_to_ij (quaternary_to_kj d F)).2 * 2 ^ rest.length + Q2) *
        (1 / ((2 ^ rest.length : Nat) : ℚ)) =
        (kj_to_ij (quaternary_to_kj d F)).2 + Q2 / 2 ^ rest.length := by
      rw [hcast]
      field_simp
    have hdig : ij_to_quaternary
        ((kj_to_ij (quaternary_to_kj d F)).1 + Q1 / 2 ^ rest.length,
         (kj_to_ij (quaternary_to_kj d F)).2 + Q2 / 2 ^ rest.length) F = d :=
      ij_to_quaternary_child F hF d hd (Q1 / 2 ^ rest.length, Q2 / 2 ^ rest.length)
        hreg0
    simp only [extractDigitsM, hsc1, hsc2, hdig]
    have hsub1 : (kj_to_ij (quaternary_to_kj d F)).1 * 2 ^ rest.length + Q1 -
        (kj_to_ij (quaternary_to_kj d F)).1 * ((2 ^ rest.length : Nat) : ℚ) = Q1 := by
      rw [hcast]
      ring
    have hsub2 : (kj_to_ij (quaternary_to_kj d F)).2 * 2 ^ rest.length + Q2 -
        (kj_to_ij (quaternary_to_kj d F)).2 * ((2 ^ rest.length : Nat) : ℚ) = Q2 := by
      rw [hcast]
      ring
    rw [hsub1, hsub2, hQ1, hQ2,
      ih (fmul F (quaternary_to_flips d)) hrest hF2]

/-- The in-place extraction loop equals the structural extraction: the
extracted digits are written LSB-first into the positions below `m`. -/
theorem extractLoop_eq (input : ℚ × ℚ) :
    ∀ (m : Nat) (digits0 : List Nat) (pivot : ℚ × ℚ) (F : Int × Int),
      m ≤ digits0.length →
      extractLoop input m digits0 pivot F =
        ((extractDigitsM (input.1 - pivot.1, input.2 - pivot.2) m F).1.reverse
           ++ digits0.drop m,
         (extractDigitsM (input.1 - pivot.1, input.2 - pivot.2) m F).2) := by
  intro m
  induction m with
  | zero =>
    intro digits0 pivot F _
    simp [extractLoop, extractDigitsM]
  | succ i ih =>
    intro digits0 pivot F hle
    have hi : i < digits0.length := by omega
    show extractLoop input i
        (digits0.set i (ij_to_quaternary
          ((input.1 - pivot.1) * (1 / ((2 ^ i : Nat) : ℚ)),
           (input.2 - pivot.2) * (1 / ((2 ^ i : Nat) : ℚ))) F))
        (pivot.1 + (kj_to_ij (quaternary_to_kj (ij_to_quaternary
            ((input.1 - pivot.1) * (1 / ((2 ^ i : Nat) : ℚ)),
             (input.2 - pivot.2) * (1 / ((2 ^ i : Nat) : ℚ))) F) F)).1 *
            ((2 ^ i : Nat) : ℚ),
         pivot.2 + (kj_to_ij (quaternary_to_kj (ij_to_quaternary
            ((input.1 - pivot.1) * (1 / ((2 ^ i : Nat) : ℚ)),
             (input.2 - pivot.2) * (1 / ((2 ^ i : Nat) : ℚ))) F) F)).2 *
            ((2 ^ i : Nat) : ℚ))
        (F.1 * (quaternary_to_flips (ij_to_quaternary
            ((input.1 - pivot.1) * (1 / ((2 ^ i : Nat) : ℚ)),
             (input.2 - pivot.2) * (1 / ((2 ^ i : Nat) : ℚ))) F)).1,
         F.2 * (quaternary_to_flips (ij_to_quaternary
            ((input.1 - pivot.1) * (1 / ((2 ^ i : Nat) : ℚ)),
             (input.2 - pivot.2) * (1 / ((2 ^ i : Nat) : ℚ))) F)).2) = _
    set dg := ij_to_quaternary
      ((input.1 - pivot.1) * (1 / ((2 ^ i : Nat) : ℚ)),
       (input.2 - pivot.2) * (1 / ((2 ^ i : Nat) : ℚ))) F with hdg
    set c1 := (kj_to_ij (quaternary_to_kj dg F)).1 with hc1
    set c2 := (kj_to_ij (quaternary_to_kj dg F)).2 with hc2
    have hF2 : (F.1 * (quaternary_to_flips dg).1, F.2 * (quaternary_to_flips dg).2) =
        fmul F (quaternary_to_flips dg) := rfl
    rw [hF2, ih (digits0.set i dg)
      (pivot.1 + c1 * ((2 ^ i : Nat) : ℚ), pivot.2 + c2 * ((2 ^ i : Nat) : ℚ))
      (fmul F (quaternary_to_flips dg)) (by simpa using le_of_lt hi)]
    have harg1 : input.1 - (pivot.1 + c1 * ((2 ^ i : Nat) : ℚ)) =
        input.1 - pivot.1 - c1 * ((2 ^ i : Nat) : ℚ) := by ring
    have harg2 : input.2 - (pivot.2 + c2 * ((2 ^ i : Nat) : ℚ)) =
        input.2 - pivot.2 - c2 * ((2 ^ i : Nat) : ℚ) := by ring
    rw [harg1, harg2]
    have hdrop : (digits0.set i dg).drop i = dg :: digits0.drop (i + 1) := by
      rw [List.drop_eq_getElem_cons (by simpa using hi)]
      congr 1
      · exact List.getElem_set_self (by simpa using hi)
      · rw [List.drop_set]
        simp
    rw [hdrop]
    simp only [extractDigitsM]
    rw [← hdg, ← hc1, ← hc2]
    simp only [List.reverse_cons, List.append_assoc, List.cons_append,
      List.nil_append]

theorem flipsTotal_reverse (l : List Nat) :
    flipsTotal l.reverse = flipsTotal l := by
  induction l with
  | nil => rfl
  | cons d t ih =>
    rw [List.reverse_cons, flipsTotal_append, ih, flipsTotal_cons,
      flipsTotal_cons, flipsTotal_nil, fmul_one_right, fmul_comm]

theorem buildDigits_length : ∀ (res s : Nat), s < 4 ^ res →
    (buildDigits s res).length = res := by
  intro res
  induction res with
  | zero =>
    intro s hs
    have : s = 0 := by simpa using hs
    subst this
    rw [buildDigits]
    simp
  | succ r ih =>
    intro s hs
    rw [buildDigits, if_pos (by omega : 0 < s ∨ 0 < r + 1)]
    have h4 : s / 4 < 4 ^ r := by
      have : 4 ^ (r + 1) = 4 ^ r * 4 := pow_succ 4 r
      omega
    simp [ih (s / 4) h4]

theorem buildDigits_lt_aux : ∀ (n s res : Nat), s + res ≤ n →
    ∀ x ∈ buildDigits s res, x < 4 := by
  intro n
  induction n with
  | zero =>
    intro s res hle x hx
    obtain rfl : s = 0 := by omega
    obtain rfl : res = 0 := by omega
    rw [buildDigits] at hx
    simp at hx
  | succ n ih =>
    intro s res hle x hx
    rw [buildDigits] at hx
    by_cases hc : 0 < s ∨ 0 < res
    · rw [if_pos hc] at hx
      rcases List.mem_cons.mp hx with rfl | hx2
      · exact Nat.mod_lt _ (by norm_num)
      · refine ih (s / 4) (res - 1) ?_ x hx2
        have hd : s / 4 ≤ s := Nat.div_le_self s 4
        rcases hc with hs | hr
        · have : s / 4 < s := Nat.div_lt_self hs (by norm_num)
          omega
        · omega
    · rw [if_neg hc] at hx
      simp at hx

theorem buildDigits_lt (s res : Nat) : ∀ x ∈ buildDigits s res, x < 4 :=
  buildDigits_lt_aux (s + res) s res (le_refl _)

theorem digitsToNat_cons (d : Nat) (l : List Nat) :
    digitsToNat (d :: l) = d + 4 * digitsToNat l := rfl

theorem digitsToNat_buildDigits : ∀ (n s res : Nat), s + res ≤ n →
    digitsToNat (buildDigits s res) = s := by
  intro n
  induction n with
  | zero =>
    intro s res hle
    obtain rfl : s = 0 := by omega
    obtain rfl : res = 0 := by omega
    rw [buildDigits]
    simp [digitsToNat]
  | succ n ih =>
    intro s res hle
    rw [buildDigits]
    by_cases hc : 0 < s ∨ 0 < res
    · rw [if_pos hc]
      rw [digitsToNat_cons]
      have hrec : digitsToNat (buildDigits (s / 4) (res - 1)) = s / 4 := by
        refine ih (s / 4) (res - 1) ?_
        have hd : s / 4 ≤ s := Nat.div_le_self s 4
        rcases hc with hs | hr
        · have : s / 4 < s := Nat.div_lt_self hs (by norm_num)
          omega
        · omega
      rw [hrec]
      omega
    · rw [if_neg hc]
      have : s = 0 := by omega
      simp [digitsToNat, this]

/-- Internal round trip: `ij_to_s_internal` inverts `s_to_anchor_internal`
(same `invert_j`/`flip_ij` flags) for any nudge function mapping each
flip state into its open unit region. -/
theorem internal_round_trip (ν : Int × Int → ℚ × ℚ)
    (hν : ∀ F, validFlips F → inRegion F 0 (ν F))
    (s H : Nat) (hH : 1 ≤ H) (hs : s < 4 ^ H) (inv fl : Bool) :
    ij_to_s_internal
      ((s_to_anchor_internal s H inv fl).offset.1 +
         (ν (s_to_anchor_internal s H inv fl).flips).1,
       (s_to_anchor_internal s H inv fl).offset.2 +
         (ν (s_to_anchor_internal s H inv fl).flips).2)
      inv fl H = s := by
  have hlen : (buildDigits s H).length = H := buildDigits_length H s hs
  have hlt4 : ∀ x ∈ buildDigits s H, x < 4 := buildDigits_lt s H
  rcases List.eq_nil_or_concat (buildDigits s H) with hnil | ⟨low, c, hds⟩
  · rw [hnil] at hlen
    simp at hlen
    omega
  rw [List.concat_eq_append] at hds
  set pat := if fl then PATTERN_FLIPPED else PATTERN with hpat
  set rpat := if fl then PATTERN_FLIPPED_REVERSED else PATTERN_REVERSED with hrpat
  have hstep : ∀ c' d F, c' < 4 → d < 4 → validFlips F →
      shiftStep (shiftStep c' d F inv pat).1 (shiftStep c' d F inv pat).2
        F inv rpat = (c', d) := by
    intro c' d F hc hd hF
    rw [hpat, hrpat]
    cases fl
    · exact shiftStep_inverts_main inv c' d F hc hd hF
    · exact shiftStep_inverts_flipped inv c' d F hc hd hF
  have hc4 : c < 4 := hlt4 c (by rw [hds]; simp)
  have hlow4 : ∀ x ∈ low.reverse, x < 4 := by
    intro x hx
    exact hlt4 x (by
      rw [hds]
      exact List.mem_append_left _ (List.mem_reverse.mp hx))
  set SP := shiftPass inv pat c low.reverse (1, 1) with hSP
  have hshift : shiftLoop inv pat (buildDigits s H) (1, 1)
      (buildDigits s H).length = SP.reverse := by
    rw [hds, show (low ++ [c]).length = low.length + 1 by simp,
      shiftLoop_eq inv pat low c [] (1, 1), List.append_nil]
  have hSPlen : SP.length = H := by
    rw [hSP, shiftPass_length]
    rw [hds] at hlen
    simp only [List.length_append, List.length_reverse, List.length_singleton] at hlen ⊢
    omega
  have hSP4 : ∀ x ∈ SP, x < 4 :=
    shiftPass_all_lt inv pat low.reverse c (1, 1) hc4 hlow4
  have hoff := offsetLoop_eq SP.reverse SP.reverse.length (le_refl _) (0, 0) (1, 1)
  rw [List.take_length] at hoff
  have hanchor : s_to_anchor_internal s H inv fl =
      { k := SP.reverse.getD 0 0,
        offset := kj_to_ij (hilbertOffsetM SP (1, 1)),
        flips := flipsTotal SP } := by
    simp only [s_to_anchor_internal]
    rw [← hpat, hshift, hoff]
    simp [List.reverse_reverse, flipsTotal_reverse, fmul_one_left, Prod.mk.eta]
    exact fmul_one_left _
  have hextr := extractDigitsM_correct ν hν SP (1, 1) hSP4 ⟨Or.inl rfl, Or.inl rfl⟩
  rw [fmul_one_left] at hextr
  rw [hSPlen] at hextr
  rw [hanchor]
  simp only []
  simp only [ij_to_s_internal]
  rw [← hrpat]
  rw [extractLoop_eq _ H (List.replicate H 0) (0, 0) (1, 1) (by simp)]
  simp only [sub_zero, Prod.mk.eta]
  rw [hextr]
  simp only []
  have hdrop : (List.replicate H (0:Nat)).drop H = [] := by
    simp
  rw [hdrop, List.append_nil]
  have hrevne : SP.reverse ≠ [] := by
    simp only [ne_eq, List.reverse_eq_nil_iff]
    exact shiftPass_ne_nil inv pat c low.reverse (1, 1)
  obtain ⟨e, tail, hes⟩ : ∃ e t, SP.reverse = e :: t := by
    cases h : SP.reverse with
    | nil => exact absurd h hrevne
    | cons a b => exact ⟨a, b, rfl⟩
  rw [hes]
  have hstep0 : unshiftLoop inv rpat (e :: tail) (flipsTotal SP) 0
      (e :: tail).length =
      unshiftLoop inv rpat (e :: tail)
        (fmul (flipsTotal SP) (quaternary_to_flips e)) 1 tail.length := rfl
  rw [hstep0]
  have hunsh := unshiftLoop_eq inv rpat tail [] e
    (fmul (flipsTotal SP) (quaternary_to_flips e))
  simp only [List.nil_append, List.length_nil, Nat.zero_add] at hunsh
  rw [hunsh]
  have hcore := pass3Scan_shiftPass inv pat rpat hstep low.reverse c (1, 1)
    hlow4 hc4 ⟨Or.inl rfl, Or.inl rfl⟩
  rw [fmul_one_left, List.reverse_reverse] at hcore
  rw [hes] at hcore
  have hp3 : pass3Scan inv rpat (e :: tail) (flipsTotal SP) =
      goScan inv rpat tail e (fmul (flipsTotal SP) (quaternary_to_flips e)) := rfl
  rw [hp3] at hcore
  rw [hcore]
  simp only []
  rw [← hds]
  exact digitsToNat_buildDigits (s + H) s H (le_refl _)

/-- The anchor flip state produced by `s_to_anchor_internal` is valid. -/
theorem s_to_anchor_internal_flips_valid (s H : Nat) (inv fl : Bool) :
    validFlips (s_to_anchor_internal s H inv fl).flips := by
  simp only [s_to_anchor_internal]
  rw [offsetLoop_eq _ _ (le_refl _)]
  exact validFlips_fmul ⟨Or.inl rfl, Or.inl rfl⟩ (flipsTotal_valid _)

/-- The test nudge lands in the open unit region of its flip state. -/
theorem nudge_inRegion : ∀ F, validFlips F → inRegion F 0 (nudge F) := by
  intro F hF
  obtain ⟨f1, f2⟩ := F
  simp only [validFlips] at hF
  rcases hF with ⟨h1 | h1, h2 | h2⟩ <;> subst h1 <;> subst h2 <;>
    norm_num [nudge, inRegion]

/-- The net offset added by the `FLIP_SHIFT` compensation of the
`flip_ij` wrapper. -/
def flipShiftDelta (φ : Int × Int) : ℚ × ℚ :=
  ((if φ.1 = -1 then (-1:ℚ) else 0) - (if φ.2 = -1 then (-1:ℚ) else 0),
   (if φ.1 = -1 then (1:ℚ) else 0) - (if φ.2 = -1 then (1:ℚ) else 0))

/-- Effective internal nudge of the `flip_ij` orientations (`UW`, `WU`):
the external nudge, swapped, plus the swapped flip-shift compensation. -/
def nudgeUW (φ : Int × Int) : ℚ × ℚ :=
  ((flipShiftDelta φ).2 + (nudge φ).2, (flipShiftDelta φ).1 + (nudge φ).1)

/-- Effective internal nudge of the `invert_j` orientations (`WV`, `VW`). -/
def nudgeWV (φ : Int × Int) : ℚ × ℚ :=
  ((nudge (-φ.1, φ.2)).1, -(nudge (-φ.1, φ.2)).1 - (nudge (-φ.1, φ.2)).2)

theorem nudgeUW_inRegion : ∀ F, validFlips F → inRegion F 0 (nudgeUW F) := by
  intro F hF
  obtain ⟨f1, f2⟩ := F
  simp only [validFlips] at hF
  rcases hF with ⟨h1 | h1, h2 | h2⟩ <;> subst h1 <;> subst h2 <;>
    norm_num [nudgeUW, flipShiftDelta, nudge, inRegion]

theorem nudgeWV_inRegion : ∀ F, validFlips F → inRegion F 0 (nudgeWV F) := by
  intro F hF
  obtain ⟨f1, f2⟩ := F
  simp only [validFlips] at hF
  rcases hF with ⟨h1 | h1, h2 | h2⟩ <;> subst h1 <;> subst h2 <;>
    norm_num [nudgeWV, nudge, inRegion]

theorem round_trip_UV (s H : Nat) (hH : 1 ≤ H) (hs : s < 4 ^ H) :
    ij_to_s
      ((s_to_anchor s H .UV).offset.1 + (nudge (s_to_anchor s H .UV).flips).1,
       (s_to_anchor s H .UV).offset.2 + (nudge (s_to_anchor s H .UV).flips).2)
      H .UV = s := by
  have ha : s_to_anchor s H .UV = s_to_anchor_internal s H false false := by
    simp [s_to_anchor]
  rw [ha]
  have hij : ∀ p : ℚ × ℚ, ij_to_s p H .UV = ij_to_s_internal p false false H := by
    intro p
    simp [ij_to_s]
  rw [hij]
  exact internal_round_trip nudge nudge_inRegion s H hH hs false false

theorem round_trip_VU (s H : Nat) (hH : 1 ≤ H) (hs : s < 4 ^ H) :
    ij_to_s
      ((s_to_anchor s H .VU).offset.1 + (nudge (s_to_anchor s H .VU).flips).1,
       (s_to_anchor s H .VU).offset.2 + (nudge (s_to_anchor s H .VU).flips).2)
      H .VU = s := by
  have h4 : (2:Nat) ^ (2 * H) = 4 ^ H := by
    rw [pow_mul]
    norm_num
  have hs' : 2 ^ (2 * H) - s - 1 < 4 ^ H := by omega
  have ha : s_to_anchor s H .VU =
      s_to_anchor_internal (2 ^ (2 * H) - s - 1) H false false := by
    simp [s_to_anchor]
  rw [ha]
  have hij : ∀ p : ℚ × ℚ, ij_to_s p H .VU =
      2 ^ (2 * H) - ij_to_s_internal p false false H - 1 := by
    intro p
    simp [ij_to_s]
  rw [hij,
    internal_round_trip nudge nudge_inRegion (2 ^ (2 * H) - s - 1) H hH hs'
      false false]
  omega

theorem round_trip_WV (s H : Nat) (hH : 1 ≤ H) (hs : s < 4 ^ H) :
    ij_to_s
      ((s_to_anchor s H .WV).offset.1 + (nudge (s_to_anchor s H .WV).flips).1,
       (s_to_anchor s H .WV).offset.2 + (nudge (s_to_anchor s H .WV).flips).2)
      H .WV = s := by
  have ha : s_to_anchor s H .WV =
      { k := (s_to_anchor_internal s H true false).k,
        offset := ((s_to_anchor_internal s H true false).offset.1,
          (2 ^ H : ℚ) - ((s_to_anchor_internal s H true false).offset.1 +
            (s_to_anchor_internal s H true false).offset.2)),
        flips := (-(s_to_anchor_internal s H true false).flips.1,
          (s_to_anchor_internal s H true false).flips.2) } := by
    simp [s_to_anchor]
  rw [ha]
  simp only []
  have hij : ∀ p : ℚ × ℚ, ij_to_s p H .WV =
      ij_to_s_internal (p.1, (2 ^ H : ℚ) - (p.1 + p.2)) true false H := by
    intro p
    simp [ij_to_s]
  rw [hij]
  simp only []
  have hpt : (((s_to_anchor_internal s H true false).offset.1 +
        (nudge (-(s_to_anchor_internal s H true false).flips.1,
          (s_to_anchor_internal s H true false).flips.2)).1 : ℚ),
      (2 ^ H : ℚ) -
        ((s_to_anchor_internal s H true false).offset.1 +
          (nudge (-(s_to_anchor_internal s H true false).flips.1,
            (s_to_anchor_internal s H true false).flips.2)).1 +
         ((2 ^ H : ℚ) - ((s_to_anchor_internal s H true false).offset.1 +
            (s_to_anchor_internal s H true false).offset.2) +
          (nudge (-(s_to_anchor_internal s H true false).flips.1,
            (s_to_anchor_internal s H true false).flips.2)).2))) =
      ((s_to_anchor_internal s H true false).offset.1 +
        (nudgeWV (s_to_anchor_internal s H true false).flips).1,
       (s_to_anchor_internal s H true false).offset.2 +
        (nudgeWV (s_to_anchor_internal s H true false).flips).2) := by
    simp only [nudgeWV]
    refine Prod.ext rfl ?_
    simp only []
    ring
  rw [hpt]
  exact internal_round_trip nudgeWV nudgeWV_inRegion s H hH hs true false

theorem round_trip_VW (s H : Nat) (hH : 1 ≤ H) (hs : s < 4 ^ H) :
    ij_to_s
      ((s_to_anchor s H .VW).offset.1 + (nudge (s_to_anchor s H .VW).flips).1,
       (s_to_anchor s H .VW).offset.2 + (nudge (s_to_anchor s H .VW).flips).2)
      H .VW = s := by
  have h4 : (2:Nat) ^ (2 * H) = 4 ^ H := by
    rw [pow_mul]
    norm_num
  have hs' : 2 ^ (2 * H) - s - 1 < 4 ^ H := by omega
  have ha : s_to_anchor s H .VW =
      { k := (s_to_anchor_internal (2 ^ (2 * H) - s - 1) H true false).k,
        offset := ((s_to_anchor_internal (2 ^ (2 * H) - s - 1) H true false).offset.1,
          (2 ^ H : ℚ) -
            ((s_to_anchor_internal (2 ^ (2 * H) - s - 1) H true false).offset.1 +
             (s_to_anchor_internal (2 ^ (2 * H) - s - 1) H true false).offset.2)),
        flips := (-(s_to_anchor_internal (2 ^ (2 * H) - s - 1) H true false).flips.1,
          (s_to_anchor_internal (2 ^ (2 * H) - s - 1) H true false).flips.2) } := by
    simp [s_to_anchor]
  rw [ha]
  simp only []
  have hij : ∀ p : ℚ × ℚ, ij_to_s p H .VW =
      2 ^ (2 * H) -
        ij_to_s_internal (p.1, (2 ^ H : ℚ) - (p.1 + p.2)) true false H - 1 := by
    intro p
    simp [ij_to_s]
  rw [hij]
  simp only []
  have hpt : (((s_to_anchor_internal (2 ^ (2 * H) - s - 1) H true false).offset.1 +
        (nudge (-(s_to_anchor_internal (2 ^ (2 * H) - s - 1) H true false).flips.1,
          (s_to_anchor_internal (2 ^ (2 * H) - s - 1) H true false).flips.2)).1 : ℚ),
      (2 ^ H : ℚ) -
        ((s_to_anchor_internal (2 ^ (2 * H) - s - 1) H true false).offset.1 +
          (nudge (-(s_to_anchor_internal (2 ^ (2 * H) - s - 1) H true false).flips.1,
            (s_to_anchor_internal (2 ^ (2 * H) - s - 1) H true false).flips.2)).1 +
         ((2 ^ H : ℚ) -
            ((s_to_anchor_internal (2 ^ (2 * H) - s - 1) H true false).offset.1 +
             (s_to_anchor_internal (2 ^ (2 * H) - s - 1) H true false).offset.2) +
          (nudge (-(s_to_anchor_internal (2 ^ (2 * H) - s - 1) H true false).flips.1,
            (s_to_anchor_internal (2 ^ (2 * H) - s - 1) H true false).flips.2)).2))) =
      ((s_to_anchor_internal (2 ^ (2 * H) - s - 1) H true false).offset.1 +
        (nudgeWV (s_to_anchor_internal (2 ^ (2 * H) - s - 1) H true false).flips).1,
       (s_to_anchor_internal (2 ^ (2 * H) - s - 1) H true false).offset.2 +
        (nudgeWV (s_to_anchor_internal (2 ^ (2 * H) - s - 1) H true false).flips).2) := by
    simp only [nudgeWV]
    refine Prod.ext rfl ?_
    simp only []
    ring
  rw [hpt,
    internal_round_trip nudgeWV nudgeWV_inRegion (2 ^ (2 * H) - s - 1) H hH hs'
      true false]
  omega

theorem round_trip_UW (s H : Nat) (hH : 1 ≤ H) (hs : s < 4 ^ H) :
    ij_to_s
      ((s_to_anchor s H .UW).offset.1 + (nudge (s_to_anchor s H .UW).flips).1,
       (s_to_anchor s H .UW).offset.2 + (nudge (s_to_anchor s H .UW).flips).2)
      H .UW = s := by
  simp [s_to_anchor, ij_to_s, FLIP_SHIFT]
  convert internal_round_trip nudgeUW nudgeUW_inRegion s H hH hs false true
    using 2
  simp only [nudgeUW, flipShiftDelta]
  split_ifs <;> (refine Prod.ext ?_ ?_ <;> simp only [] <;> ring)

theorem round_trip_WU (s H : Nat) (hH : 1 ≤ H) (hs : s < 4 ^ H) :
    ij_to_s
      ((s_to_anchor s H .WU).offset.1 + (nudge (s_to_anchor s H .WU).flips).1,
       (s_to_anchor s H .WU).offset.2 + (nudge (s_to_anchor s H .WU).flips).2)
      H .WU = s := by
  have h4 : (2:Nat) ^ (2 * H) = 4 ^ H := by
    rw [pow_mul]
    norm_num
  have hs' : 2 ^ (2 * H) - s - 1 < 4 ^ H := by omega
  simp [s_to_anchor, ij_to_s, FLIP_SHIFT]
  convert_to (2:Nat) ^ (2 * H) - (2 ^ (2 * H) - s - 1) - 1 = s using 3
  · convert internal_round_trip nudgeUW nudgeUW_inRegion (2 ^ (2 * H) - s - 1)
      H hH hs' false true using 2
    simp only [nudgeUW, flipShiftDelta]
    split_ifs <;> (refine Prod.ext ?_ ?_ <;> simp only [] <;> ring)
  · omega

/-- C1: for every Hilbert resolution H with 1 ≤ H ≤ 29, every s in
[0, 4^H) and each of the six orientations, ij_to_s applied to the offset
of s_to_anchor(s, H, orientation), nudged into the interior of the cell
according to the anchor's flips, returns s: ij_to_s inverts s_to_anchor
over the whole index range for all six orientations. -/
theorem C1_hilbert_round_trip (H s : Nat) (h1 : 1 ≤ H) (h2 : H ≤ 29)
    (hs : s < 4 ^ H) (ω : Orientation) :
    ij_to_s
      ((s_to_anchor s H ω).offset.1 + (nudge (s_to_anchor s H ω).flips).1,
       (s_to_anchor s H ω).offset.2 + (nudge (s_to_anchor s H ω).flips).2)
      H ω = s := by
  cases ω with
  | UV => exact round_trip_UV s H h1 hs
  | VU => exact round_trip_VU s H h1 hs
  | UW => exact round_trip_UW s H h1 hs
  | WU => exact round_trip_WU s H h1 hs
  | VW => exact round_trip_VW s H h1 hs
  | WV => exact round_trip_WV s H h1 hs

/-- Witness for C1 at H = 2, s = 7, orientation WU. -/
theorem C1_hilbert_round_trip_witness :
    1 ≤ 2 ∧ 2 ≤ 29 ∧ 7 < 4 ^ 2 ∧
    ij_to_s
      ((s_to_anchor 7 2 .WU).offset.1 + (nudge (s_to_anchor 7 2 .WU).flips).1,
       (s_to_anchor 7 2 .WU).offset.2 + (nudge (s_to_anchor 7 2 .WU).flips).2)
      2 .WU = 7 :=
  ⟨by decide, by decide, by decide,
   C1_hilbert_round_trip 2 7 (by decide) (by decide) (by decide) .WU⟩

/-! ### core/compact.rs

`compact.rs` imports `get_stride` and `is_first_child` from
`serialization.rs` and `get_num_children` from `cell_info.rs`; those
three helpers are absent from the vendored sources, so they are
modelled from the specification text (spec.md sections 4.9 and 4.10);
`compact` and `uncompact` themselves are translated from the source. -/

/-- Modelled from the spec: `get_stride(r)` — the identifier distance
between consecutive siblings at resolution `r`, i.e. the lowest
addressable bit shift between siblings: one S step (`2^(60-2r)`) at
Hilbert resolutions, one top-6-bits step (`2^58`) below them. -/
def get_stride (resolution : Int) : Nat :=
  if 2 ≤ resolution then 2 ^ (60 - 2 * resolution).toNat else 2 ^ 58

/-- Modelled from the spec: the resolution marker bit value of a cell at
resolution `r` (bit `59 - 2r` at Hilbert resolutions, bit 56 at
resolution 1, bit 57 at resolution 0). -/
def stride_marker (resolution : Int) : Nat :=
  if 2 ≤ resolution then 2 ^ (59 - 2 * resolution).toNat
  else if resolution = 1 then 2 ^ 56
  else 2 ^ 57

/-- Modelled from the spec: a cell is a first child iff
`(cell & (4*stride - 1)) == stride_marker`. -/
def is_first_child (cell : Nat) (resolution : Int) : Bool :=
  cell &&& (4 * get_stride resolution - 1) == stride_marker resolution

/-- Modelled from the spec: `get_num_children(res, target)` — the number
of resolution-`target` descendants of one cell at resolution `res`: 12
origins from the world cell, 5 segments across resolution 0 to 1, and 4
Hilbert children per further step. -/
def get_num_children (res target : Int) : Nat :=
  (if res = -1 then 12 else 1) *
    (if res ≤ 0 ∧ 1 ≤ target then 5 else 1) *
    4 ^ (target - max res 1).toNat

/-- One pass of the `while changed` loop of `compact`: scan the sorted
cells, replacing each complete stride-consecutive sibling group found at
a first-child boundary by its parent (the structural fuel, at least the
list length, makes each step consume one fuel unit and at least one
cell, so the fuel-exhausted arm is unreachable). -/
def compactPass : Nat → List Nat → RResult (List Nat × Bool)
  | _, [] => .ok ([], false)
  | 0, cells => .ok (cells, false)
  | fuel + 1, cell :: rest =>
    let resolution := get_resolution cell
    if resolution < 0 then
      match compactPass fuel rest with
      | .ok pr => .ok (cell :: pr.1, pr.2)
      | .err e => .err e
      | .panic => .panic
    else
      let expected_children : Nat :=
        if 2 ≤ resolution then 4 else if resolution = 0 then 12 else 5
      let has_all_siblings : Bool :=
        decide (expected_children ≤ rest.length + 1) &&
        is_first_child cell resolution &&
        (List.range (expected_children - 1)).all
          (fun j => rest.getD j 0 == cell + (j + 1) * get_stride resolution)
      if has_all_siblings then
        match cell_to_parent cell none with
        | .ok parent =>
          match compactPass fuel (rest.drop (expected_children - 1)) with
          | .ok pr => .ok (parent :: pr.1, true)
          | .err e => .err e
          | .panic => .panic
        | .err e => .err e
        | .panic => .panic
      else
        match compactPass fuel rest with
        | .ok pr => .ok (cell :: pr.1, pr.2)
        | .err e => .err e
        | .panic => .panic

/-- The `while changed` driver of `compact` (each changing pass strictly
shrinks the list, so `length + 1` passes always suffice). -/
def compactLoop : Nat → List Nat → RResult (List Nat)
  | 0, cells => .ok cells
  | fuel + 1, cells =>
    match compactPass cells.length cells with
    | .ok pr => if pr.2 then compactLoop fuel pr.1 else .ok pr.1
    | .err e => .err e
    | .panic => .panic

/-- Ascending insertion of a cell identifier into a sorted list. -/
def insertSorted (x : Nat) : List Nat → List Nat
  | [] => [x]
  | y :: ys => if x ≤ y then x :: y :: ys else y :: insertSorted x ys

/-- Ascending sort of cell identifiers (models `sort_unstable`). -/
def sortCells : List Nat → List Nat
  | [] => []
  | x :: xs => insertSorted x (sortCells xs)

/-- `compact`: dedup and sort, then merge complete sibling groups until
a pass changes nothing. -/
def compact (cells : List Nat) : RResult (List Nat) :=
  if cells.isEmpty then .ok []
  else
    compactLoop ((sortCells cells.dedup).length + 1) (sortCells cells.dedup)

/-- The resolution pre-check loop of `uncompact`. -/
def uncompactCheck : List Nat → Int → Option String
  | [], _ => none
  | cell :: rest, target =>
    if target - get_resolution cell < 0 then
      some "Cannot uncompact cell to lower resolution"
    else uncompactCheck rest target

/-- The expansion loop of `uncompact`. -/
def uncompactExpand : List Nat → Int → RResult (List Nat)
  | [], _ => .ok []
  | cell :: rest, target =>
    if get_num_children (get_resolution cell) target = 1 then
      match uncompactExpand rest target with
      | .ok l => .ok (cell :: l)
      | .err e => .err e
      | .panic => .panic
    else
      match cell_to_children cell (some target) with
      | .ok children =>
        match uncompactExpand rest target with
        | .ok l => .ok (children ++ l)
        | .err e => .err e
        | .panic => .panic
      | .err e => .err e
      | .panic => .panic

/-- `uncompact`: error if any cell sits deeper than the target, then
expand every cell to the target resolution. -/
def uncompact (cells : List Nat) (target_resolution : Int) :
    RResult (List Nat) :=
  match uncompactCheck cells target_resolution with
  | some e => .err e
  | none => uncompactExpand cells target_resolution

/-- C7 counterexample: the complete set of 12 resolution-0 cells is a
same-resolution list (r = 0) on which `compact` returns an error — the
merged parent would be the resolution −1 world cell, which
`cell_to_parent` rejects — so `uncompact (compact X) 0` is an error and
not `Ok` of a vector equal to X as a set. -/
theorem C7_compact_uncompact_counterexample :
    get_res0_cells =
      .ok ((List.range 12).map (fun o => o * 2 ^ 58 + 2 ^ 57)) ∧
    (∀ c ∈ (List.range 12).map (fun o => o * 2 ^ 58 + 2 ^ 57),
      get_resolution c = 0) ∧
    compact ((List.range 12).map (fun o => o * 2 ^ 58 + 2 ^ 57)) =
      .err "Target resolution (-1) cannot be negative" :=
  ⟨by decide, by decide, by decide⟩

theorem mem_insertSorted (x : Nat) :
    ∀ (l : List Nat) (c : Nat), c ∈ insertSorted x l ↔ c = x ∨ c ∈ l := by
  intro l
  induction l with
  | nil =>
    intro c
    simp [insertSorted]
  | cons y ys ih =>
    intro c
    rw [insertSorted]
    split_ifs
    · simp [List.mem_cons]
    · simp only [List.mem_cons, ih]
      tauto

theorem mem_sortCells :
    ∀ (l : List Nat) (c : Nat), c ∈ sortCells l ↔ c ∈ l := by
  intro l
  induction l with
  | nil => intro c; simp [sortCells]
  | cons x xs ih =>
    intro c
    rw [sortCells, mem_insertSorted]
    simp [List.mem_cons, ih]

/-- At the target resolution itself a cell has exactly one descendant. -/
theorem get_num_children_self (r : Int) (h0 : 0 ≤ r) :
    get_num_children r r = 1 := by
  rw [get_num_children, if_neg (by omega : ¬ (r = -1)),
    if_neg (by omega : ¬ (r ≤ 0 ∧ 1 ≤ r))]
  have hmax : r - max r 1 ≤ 0 := by
    rcases max_cases r 1 with ⟨hm, _⟩ | ⟨hm, _⟩ <;> rw [hm] <;> omega
  rw [Int.toNat_of_nonpos hmax]
  norm_num

theorem uncompactCheck_eq_none (target : Int) :
    ∀ l : List Nat, (∀ c ∈ l, ¬ (target - get_resolution c < 0)) →
      uncompactCheck l target = none := by
  intro l
  induction l with
  | nil => intro _; rfl
  | cons x xs ih =>
    intro h
    rw [uncompactCheck, if_neg (h x (List.mem_cons_self x xs))]
    exact ih (fun c hc => h c (List.mem_cons_of_mem x hc))

theorem uncompactExpand_eq_self (target : Int) :
    ∀ l : List Nat,
      (∀ c ∈ l, get_num_children (get_resolution c) target = 1) →
      uncompactExpand l target = .ok l := by
  intro l
  induction l with
  | nil => intro _; rfl
  | cons x xs ih =>
    intro h
    rw [uncompactExpand, if_pos (h x (List.mem_cons_self x xs)),
      ih (fun c hc => h c (List.mem_cons_of_mem x hc))]

/-- C7 (amended): the compact/uncompact round trip holds, as set
equality, on every non-empty same-resolution list on which the
compaction pass performs no merge (no complete first-child-aligned,
stride-consecutive sibling group occurs in the sorted deduplicated
list): `compact` returns the sorted deduplicated cells and `uncompact`
at the common resolution returns them unchanged, and they equal the
input as a set.  The unrestricted round trip is false: merging a
complete group of the 12 resolution-0 cells makes `compact` error (see
the counterexample). -/
theorem C7_compact_uncompact (X : List Nat) (r : Int)
    (hres : ∀ c ∈ X, get_resolution c = r) (h0 : 0 ≤ r) (hX : X ≠ [])
    (hnm : compactPass (sortCells X.dedup).length (sortCells X.dedup) =
      .ok (sortCells X.dedup, false)) :
    compact X = .ok (sortCells X.dedup) ∧
    uncompact (sortCells X.dedup) r = .ok (sortCells X.dedup) ∧
    (∀ c, c ∈ sortCells X.dedup ↔ c ∈ X) := by
  have hmem : ∀ c, c ∈ sortCells X.dedup ↔ c ∈ X := by
    intro c
    rw [mem_sortCells, List.mem_dedup]
  have hres2 : ∀ c ∈ sortCells X.dedup, get_resolution c = r :=
    fun c hc => hres c ((hmem c).mp hc)
  refine ⟨?_, ?_, hmem⟩
  · rw [compact, if_neg (by simpa [List.isEmpty_iff] using hX)]
    rw [compactLoop, hnm]
    rfl
  · rw [uncompact,
      uncompactCheck_eq_none r _ (fun c hc => by rw [hres2 c hc]; omega),
      uncompactExpand_eq_self r _ (fun c hc => by
        rw [hres2 c hc]
        exact get_num_children_self r h0)]

/-- Witness for the amended C7 on the two-cell resolution-0 list
`[2^57, 2^58 + 2^57]` (an incomplete sibling group: no merge). -/
theorem C7_compact_uncompact_witness :
    (∀ c ∈ [2 ^ 57, 2 ^ 58 + 2 ^ 57], get_resolution c = 0) ∧
    (0:Int) ≤ 0 ∧ ([2 ^ 57, 2 ^ 58 + 2 ^ 57] : List Nat) ≠ [] ∧
    compactPass (sortCells ([2 ^ 57, 2 ^ 58 + 2 ^ 57] : List Nat).dedup).length
      (sortCells ([2 ^ 57, 2 ^ 58 + 2 ^ 57] : List Nat).dedup) =
      .ok (sortCells ([2 ^ 57, 2 ^ 58 + 2 ^ 57] : List Nat).dedup, false) ∧
    (compact [2 ^ 57, 2 ^ 58 + 2 ^ 57] =
      .ok (sortCells ([2 ^ 57, 2 ^ 58 + 2 ^ 57] : List Nat).dedup) ∧
     uncompact (sortCells ([2 ^ 57, 2 ^ 58 + 2 ^ 57] : List Nat).dedup) 0 =
      .ok (sortCells ([2 ^ 57, 2 ^ 58 + 2 ^ 57] : List Nat).dedup) ∧
     (∀ c, c ∈ sortCells ([2 ^ 57, 2 ^ 58 + 2 ^ 57] : List Nat).dedup ↔
        c ∈ [2 ^ 57, 2 ^ 58 + 2 ^ 57])) :=
  ⟨by decide, by decide, by decide, by decide,
   C7_compact_uncompact [2 ^ 57, 2 ^ 58 + 2 ^ 57] 0 (by decide) (by decide)
     (by decide) (by decide)⟩

end A5
